import Mathlib

/-!
Verification of the indycar-calendar schedule pipeline.

The Python sources are shallowly embedded:
* timestamps are modelled as `Int` seconds (Python `datetime` instants; a
  `timedelta(hours=1)` is the constant 3600, and subtraction of instants can be
  negative, hence `Int`);
* Python dicts with string keys are modelled as insertion-ordered association
  lists, with `pyDictUpdate` giving the `dict.update` semantics (overwrite in
  place, else append);
* the third-party collaborators (`dateparser.parse`, HTTP fetching, JSON
  payload decoding) are abstracted as function parameters;
* `isinstance`-unpacking failures and `raise` are modelled with `Except`.
-/

namespace Indycar

/-- Python `dict.update({k: v})`: overwrite the value of an existing key in
place (keeping its position), otherwise append the pair at the end. -/
def pyDictUpdate {κ ν : Type} [DecidableEq κ] (d : List (κ × ν)) (k : κ) (v : ν) :
    List (κ × ν) :=
  if d.any (fun p => p.1 = k) then d.map (fun p => if p.1 = k then (k, v) else p)
  else d ++ [(k, v)]

/-- Lookup in an association list (Python `dict.get`). -/
def pyDictGet {κ ν : Type} [DecidableEq κ] (d : List (κ × ν)) (k : κ) : Option ν :=
  (d.find? (fun p => decide (p.1 = k))).map Prod.snd

/-- Stable insertion of one element into an already sorted accumulator: the new
element goes after every element whose key is less than or equal to its own. -/
def insertByKey {α : Type} (key : α → Int) (e : α) : List α → List α
  | [] => [e]
  | f :: fs => if key f ≤ key e then f :: insertByKey key e fs else e :: f :: fs

/-- Stable sort by an `Int` key, modelling Python `sorted(xs, key=...)`
(Python sorted is stable; any stable sort by the same key agrees with it). -/
def sortByKey {α : Type} (key : α → Int) (l : List α) : List α :=
  l.foldl (fun acc e => insertByKey key e acc) []

/-- Substring test on character lists (Python `needle in hay`). -/
def hasSubList (needle : List Char) : List Char → Bool
  | [] => needle.isEmpty
  | c :: t => needle.isPrefixOf (c :: t) || hasSubList needle t

/-- Python `needle in hay` for strings. -/
def hasSub (needle hay : String) : Bool :=
  hasSubList needle.data hay.data

/-- Python `str.lower()` (restricted to ASCII, which covers the keyword
matching done by the classifier). -/
def pyLower (s : String) : String :=
  ⟨s.data.map Char.toLower⟩

/-- Python `str.upper()` (ASCII model). -/
def pyUpper (s : String) : String :=
  ⟨s.data.map Char.toUpper⟩

/-- One step bound of the scans below: each step consumes at least one
character, so the length of the text is enough fuel. -/
def splitOnGo (sep : List Char) : Nat → List Char → List Char → List (List Char)
  | _, [], acc => [acc.reverse]
  | 0, cs, acc => [acc.reverse ++ cs]
  | fuel + 1, c :: rest, acc =>
    if sep.isPrefixOf (c :: rest) then
      acc.reverse :: splitOnGo sep fuel (rest.drop (sep.length - 1)) []
    else
      splitOnGo sep fuel rest (c :: acc)

/-- Python `s.split(sep)` for a nonempty separator: chunks between
left-to-right non-overlapping separator occurrences, keeping empty chunks. -/
def pySplitOn (sep : String) (s : String) : List String :=
  (splitOnGo sep.data s.data.length s.data []).map String.mk

/-- Worker for `pyReplace`, fuelled by the text length. -/
def replaceGo (pat repl : List Char) : Nat → List Char → List Char
  | _, [] => []
  | 0, cs => cs
  | fuel + 1, c :: rest =>
    if pat.isPrefixOf (c :: rest) then
      repl ++ replaceGo pat repl fuel (rest.drop (pat.length - 1))
    else
      c :: replaceGo pat repl fuel rest

/-- Python `s.replace(pat, repl)` for a nonempty pattern: replace every
left-to-right non-overlapping occurrence. -/
def pyReplace (s pat repl : String) : String :=
  ⟨replaceGo pat.data repl.data s.data.length s.data⟩

/-- A raw schedule entry as produced by `parse_session`: a title plus start and
end instants (`start_dt` / `end_dt` in the source). -/
structure RawSess where
  title : String
  start_dt : Int
  end_dt : Int
deriving DecidableEq, Repr

/-- A classified session dict after a `session_key` has been assigned. Group
records created by `group_qualifying` / `group_races` carry no `title` key
until the single-group collapse adds one, hence `title : Option String`. -/
structure Sess where
  session_key : String
  title : Option String
  start_dt : Int
  end_dt : Int
deriving DecidableEq, Repr

/-! ### group_qualifying / group_races (indycar_schedule.py lines 42-89) -/

/-- Loop body of the grouping pass for the entries after the first one
(source lines 46-59 with `i > 0`): `prev` is the previous entry, `grouped` the
dict keyed by group number, `gn` the current group number. A gap from the
previous entry end to the current entry start of strictly less than one hour
(3600) merges into the current group, keeping the stored group start
(`grouped.get(group_number, entries[i-1])['start_dt']`); otherwise a new group
starts at the current entry. -/
def groupGo (pfx : String) : List RawSess → RawSess → List (Nat × Sess) → Nat →
    List (Nat × Sess)
  | [], _, grouped, _ => grouped
  | e :: rest, prev, grouped, gn =>
    if e.start_dt - prev.end_dt < 3600 then
      let startDt := ((pyDictGet grouped gn).map Sess.start_dt).getD prev.start_dt
      groupGo pfx rest e
        (pyDictUpdate grouped gn
          ⟨pfx ++ toString gn, none, startDt, e.end_dt⟩) gn
    else
      groupGo pfx rest e
        (pyDictUpdate grouped (gn + 1)
          ⟨pfx ++ toString (gn + 1), none, e.start_dt, e.end_dt⟩) (gn + 1)

/-- Collapse of a single-group result (source lines 61-63 / 86-88): when the
grouping yields exactly one group its key drops the number and a display title
is added. -/
def collapseSingle (bareKey bareTitle : String) : List Sess → List Sess
  | [g] => [{ g with session_key := bareKey, title := some bareTitle }]
  | gs => gs

/-- The grouping pass shared by `group_qualifying` and `group_races`: the first
entry always opens group 1 (the `i > 0` condition fails on it), the remaining
entries run through `groupGo`, and a single-group result is collapsed. -/
def groupPass (pfx bareKey bareTitle : String) (entries : List RawSess) : List Sess :=
  match entries with
  | [] => []
  | e :: rest =>
    let grouped :=
      groupGo pfx rest e
        (pyDictUpdate [] 1 ⟨pfx ++ toString 1, none, e.start_dt, e.end_dt⟩) 1
    collapseSingle bareKey bareTitle (grouped.map Prod.snd)

/-- `group_qualifying` (source lines 42-64). -/
def group_qualifying (qualis : List RawSess) : List Sess :=
  groupPass "qualifying" "qualifying" "Qualifying" qualis

/-- `group_races` (source lines 67-89). -/
def group_races (races : List RawSess) : List Sess :=
  groupPass "race" "race" "Race" races

/-! ### Specification-side view of the grouping pass.

These definitions follow the words of the spec (section 4.2 step 3): entries
are split into maximal runs, a new run opening exactly at the first entry or
when the gap from the previous entry end to the current entry start is at
least one hour; each run becomes one group whose start is the first member
start, whose end is the most recently merged member end, keyed
`<pfx><N>` with `N` counted from 1. -/

/-- Start instant of a run: the start of its first member. -/
def runStart : List RawSess → Int
  | [] => 0
  | e :: _ => e.start_dt

/-- End instant of a run: the end of its last (most recently merged) member. -/
def runEnd : List RawSess → Int
  | [] => 0
  | [e] => e.end_dt
  | _ :: e :: es => runEnd (e :: es)

/-- The group a run is turned into, with its 1-based number `n`. -/
def mkGroup (pfx : String) (n : Nat) (r : List RawSess) : Sess :=
  ⟨pfx ++ toString n, none, runStart r, runEnd r⟩

/-- Runs numbered from `n`, keyed by their number (the spec-side image of the
`grouped` dict). -/
def enumKeyedFrom (pfx : String) (n : Nat) : List (List RawSess) → List (Nat × Sess)
  | [] => []
  | r :: rs => (n, mkGroup pfx n r) :: enumKeyedFrom pfx (n + 1) rs

/-- Groups of a run list, numbered from 1. -/
def specGroups (pfx : String) (rs : List (List RawSess)) : List Sess :=
  (enumKeyedFrom pfx 1 rs).map Prod.snd

/-- Accumulator loop splitting entries into maximal runs: `cur` is the open
run (nonempty, ending in `prev`), `acc` the completed runs; an entry within
one hour of the previous entry end joins the open run, otherwise it opens a
new run. -/
def gapSplitGo (prev : RawSess) (cur : List RawSess) (acc : List (List RawSess)) :
    List RawSess → List (List RawSess)
  | [] => acc ++ [cur]
  | e :: rest =>
    if e.start_dt - prev.end_dt < 3600 then gapSplitGo e (cur ++ [e]) acc rest
    else gapSplitGo e [e] (acc ++ [cur]) rest

/-- Split of an entry list into maximal gap-separated runs. -/
def gapSplit : List RawSess → List (List RawSess)
  | [] => []
  | e :: rest => gapSplitGo e [e] [] rest

/-- View of a grouped session as a plain schedule entry (its start/end span),
used to feed a grouping result back into the grouping pass. -/
def sessToEntry (g : Sess) : RawSess :=
  ⟨g.title.getD "", g.start_dt, g.end_dt⟩

/-- Runs numbered from `n`, without their keys. -/
def specGroupsFrom (pfx : String) (n : Nat) (rs : List (List RawSess)) : List Sess :=
  (enumKeyedFrom pfx n rs).map Prod.snd

/-- Consecutive runs are separated by at least one hour: the start of each run
is at least 3600 after the end of the run before it. -/
def GapsOK : List (List RawSess) → Prop
  | [] => True
  | [_] => True
  | r1 :: r2 :: rs => runStart r2 - runEnd r1 ≥ 3600 ∧ GapsOK (r2 :: rs)

/-- Every entry of the list starts at least one hour after the end of the
entry before it (with `prev` before the first one). -/
def Separated (prev : RawSess) : List RawSess → Prop
  | [] => True
  | e :: es => e.start_dt - prev.end_dt ≥ 3600 ∧ Separated e es

/-! ### clean_sessions (indycar_schedule.py lines 92-124) -/

/-- Number of entries whose lowered title contains `"practice"`. -/
def countPractice (l : List RawSess) : Nat :=
  (l.filter (fun s => hasSub "practice" (pyLower s.title))).length

/-- The classification loop of `clean_sessions` (source lines 99-116): one pass
over the start-sorted entries, keyword tests on the lowered title in the order
practice, warmup, quali, race, fallback; returns the directly keyed sessions,
the deferred qualifying side list and the deferred race side list. `pn` is the
running practice number. The fallback keys the entry by its raw title
verbatim (source line 115). -/
def cleanLoop : List RawSess → Nat → List Sess × List RawSess × List RawSess
  | [], _ => ([], [], [])
  | s :: rest, pn =>
    let lt := pyLower s.title
    if hasSub "practice" lt then
      let t := cleanLoop rest (pn + 1)
      (⟨"practice" ++ toString pn, some s.title, s.start_dt, s.end_dt⟩ :: t.1, t.2.1, t.2.2)
    else if hasSub "warmup" lt then
      let t := cleanLoop rest pn
      (⟨"warmup", some s.title, s.start_dt, s.end_dt⟩ :: t.1, t.2.1, t.2.2)
    else if hasSub "quali" lt then
      let t := cleanLoop rest pn
      (t.1, s :: t.2.1, t.2.2)
    else if hasSub "race" lt then
      let t := cleanLoop rest pn
      (t.1, t.2.1, s :: t.2.2)
    else
      let t := cleanLoop rest pn
      (⟨s.title, some s.title, s.start_dt, s.end_dt⟩ :: t.1, t.2.1, t.2.2)

/-- `clean_sessions` (source lines 92-124): sort by start, classify, group the
deferred qualifying and race side lists, concatenate and re-sort by start.
The `race_name` argument is only used in the logged warning of the fallback
branch. -/
def clean_sessions (race_name : String) (sessions : List RawSess) : List Sess :=
  let _ := race_name
  let sorted := sortByKey RawSess.start_dt sessions
  let t := cleanLoop sorted 1
  let cleaned := t.1
    ++ (if t.2.1.isEmpty then [] else group_qualifying t.2.1)
    ++ (if t.2.2.isEmpty then [] else group_races t.2.2)
  sortByKey Sess.start_dt cleaned

/-! ### transform_sessions and parse_race_details (lines 127-158) -/

/-- `transform_sessions` (source lines 127-132): a dict mapping each
session key to its start instant, in list order (the instant stands for the
ISO string produced by `utc_dt_to_str`). -/
def transform_sessions (cleaned : List Sess) : List (String × Int) :=
  cleaned.foldl (fun acc s => pyDictUpdate acc s.session_key s.start_dt) []

/-- A race record `{name, sessions, tbc}` as assembled by the race detail
functions. -/
structure RaceIn where
  name : String
  sessions : List (String × Int)
  tbc : Bool
deriving DecidableEq, Repr

/-- Tail of `parse_race_details` (source lines 147-158) after the HTML
extraction: given the race name, the parsed session entries and the TBD flag,
clean the sessions, fail when the cleaned session count differs from the
cardinality of the session key set (Python `set`, modelled by `List.dedup`),
otherwise return the race record. -/
def parse_race_details (race_name : String) (sessions : List RawSess)
    (is_tbd : Bool) : Except String RaceIn :=
  let cleaned := clean_sessions race_name sessions
  let session_keys := (cleaned.map Sess.session_key).dedup
  if cleaned.length ≠ session_keys.length then
    Except.error s!"Duplicate session keys found for {race_name}"
  else
    Except.ok ⟨race_name, transform_sessions cleaned, is_tbd⟩

/-! ### build_output (indycar_schedule.py lines 161-173) -/

/-- A finished race record of the output document. -/
structure RaceOut where
  name : String
  sessions : List (String × Int)
  tbc : Bool
  round : Nat
  slug : String
  localeKey : String
  longitude : Int
  latitude : Int
deriving DecidableEq, Repr

/-- Characters kept by the slug generator: alphanumeric or space
(Python `x.isalnum() or x == ' '`, ASCII model). -/
def keepChar (c : Char) : Bool :=
  c.isAlphanum || c = ' '

/-- Replacement of each maximal whitespace run by a single hyphen
(Python `re.sub(r'\s+', '-', ...)`; after the character filter the only
whitespace left is the space character). -/
def collapseSpaces : List Char → List Char
  | [] => []
  | [c] => [if c = ' ' then '-' else c]
  | c :: d :: rest =>
    if c = ' ' && d = ' ' then collapseSpaces (d :: rest)
    else (if c = ' ' then '-' else c) :: collapseSpaces (d :: rest)

/-- The slug derivation of `build_output` (source line 167): drop characters
that are neither alphanumeric nor a space, collapse whitespace runs to one
hyphen, lowercase. -/
def slugOf (name : String) : String :=
  ⟨(collapseSpaces (name.data.filter keepChar)).map Char.toLower⟩

/-- One stamped race record: round set positionally, `slug` and `localeKey`
both set to the slug of the name, the geographic fields stubbed to zero; the
`name`, `sessions` and `tbc` fields are carried over unchanged. -/
def mkRaceOut (rnd : Nat) (r : RaceIn) : RaceOut :=
  ⟨r.name, r.sessions, r.tbc, rnd, slugOf r.name, slugOf r.name, 0, 0⟩

/-- The `enumerate(races, start=1)` loop of `build_output`. -/
def buildGo : Nat → List RaceIn → List RaceOut
  | _, [] => []
  | rnd, r :: rs => mkRaceOut rnd r :: buildGo (rnd + 1) rs

/-- The output schedule document `{'races': [...]}`. -/
structure Sched where
  races : List RaceOut
deriving DecidableEq, Repr

/-- `build_output` (source lines 161-173). -/
def build_output (races : List RaceIn) : Sched :=
  ⟨buildGo 1 races⟩

/-! ### parse_session (indycar_schedule.py lines 23-39) -/

/-- Python whitespace characters matched by `str.strip()` and `\s`
(ASCII model). -/
def isPySpace (c : Char) : Bool :=
  c = ' ' || c = '\t' || c = '\n' || c = '\r' || c = '\x0b' || c = '\x0c'

/-- Python `str.strip()`. -/
def pyStrip (s : String) : String :=
  ⟨((s.data.dropWhile isPySpace).reverse.dropWhile isPySpace).reverse⟩

/-- Index of the last newline inside a character run, if any. -/
def lastNlIdx (run : List Char) : Option Nat :=
  ((run.enum.filter (fun p => p.2 = '\n')).map Prod.fst).getLast?

/-- Replacement applied to one maximal whitespace run by
`re.sub(r'\s+\n', '\n', ...)`: the greedy match covers the run up to its last
newline (needing at least one whitespace character before it) and is replaced
by a single newline; the run tail after that newline holds no further newline
and stays as it is. -/
def flushWsRun (run : List Char) : List Char :=
  match lastNlIdx run with
  | some i => if 1 ≤ i then '\n' :: run.drop (i + 1) else run
  | none => run

/-- Scan for `re.sub(r'\s+\n', '\n', ...)`: `pend` collects the current
whitespace run in reverse; each maximal run is rewritten by `flushWsRun`. -/
def subWsNlGo (pend : List Char) : List Char → List Char
  | [] => flushWsRun pend.reverse
  | c :: cs =>
    if isPySpace c then subWsNlGo (c :: pend) cs
    else flushWsRun pend.reverse ++ c :: subWsNlGo [] cs

/-- `re.sub(r'\s+\n', '\n', s)` (source line 24). -/
def subWsNl (s : String) : String :=
  ⟨subWsNlGo [] s.data⟩

/-- The normalization applied to a raw session element before splitting it
into lines (source line 24). -/
def normalizeEvent (event : String) : String :=
  subWsNl (pyStrip event)

/-- The settings dict passed to `dateparser.parse` by `parse_session`. -/
structure DateParserSettings where
  timezone : String
  toTimezone : String
  returnAsTimezoneAware : Bool
deriving DecidableEq, Repr

/-- Settings interpreting the input in US-Eastern and converting it to UTC
(source lines 30-33). -/
def easternToUtc : DateParserSettings :=
  ⟨"US/Eastern", "UTC", true⟩

/-- Failures of `parse_session`: the explicit unknown-timezone `raise`
(source line 28), the `ValueError` from unpacking a time range that does not
split into exactly two pieces on the literal separator (source line 29), and
the `ValueError` from unpacking fewer than three lines (source line 25). -/
inductive SessionParseErr where
  | unknownTimezone (tz : String)
  | badTimeRange
  | badEventLines
deriving DecidableEq, Repr

/-- The record returned by `parse_session`; `dateparser.parse` may return
`None`, which the source stores without checking, hence `Option Int`. -/
structure SessionDetails where
  title : String
  start_dt : Option Int
  end_dt : Option Int
deriving DecidableEq, Repr

/-- `parse_session` (source lines 23-39). `dp` abstracts `dateparser.parse`
applied to a text and a settings dict. The timezone token is the last
space-separated piece of the time line; it must uppercase to one of ET, EST,
EDT, the time range must split into exactly two clock texts on the literal
three-character separator after all occurrences of the timezone token (with
its leading space) are removed, and the two instants are parsed from
`date year clock` in US-Eastern converted to UTC. -/
def parse_session (dp : String → DateParserSettings → Option Int)
    (event : String) (year : Int) : Except SessionParseErr SessionDetails :=
  match pySplitOn "\n" (normalizeEvent event) with
  | date :: time :: session_title :: _ =>
    let tz := ((pySplitOn " " time).getLast?).getD ""
    if pyUpper tz ∈ (["ET", "EST", "EDT"] : List String) then
      match pySplitOn " - " (pyReplace time (" " ++ tz) "") with
      | [start_time, end_time] =>
        Except.ok
          ⟨session_title,
           dp s!"{date} {year} {start_time}" easternToUtc,
           dp s!"{date} {year} {end_time}" easternToUtc⟩
      | _ => Except.error SessionParseErr.badTimeRange
    else Except.error (SessionParseErr.unknownTimezone tz)
  | _ => Except.error SessionParseErr.badEventLines

/-! ### Fox Sports race detail endpoints (indycar_schedule.py lines 195-256)
and the schedule assembly loop (lines 380-391). -/

/-- The per-event record assembled by the month-scraping phase
(source lines 369-377). -/
structure FoxEvent where
  id : String
  title : String
  webUrl : String
  dataUrl : String
  matchupUrl : String
deriving DecidableEq, Repr

/-- One schedule item of an endpoint payload: an id and an event instant
(the instant stands for the `eventTime` string). -/
structure ScheduleItem where
  id : String
  eventTime : Int
deriving DecidableEq, Repr

/-- The fields read from a matchup endpoint payload
(`race_info['eventSchedule']['scheduleItems']`). -/
structure MatchupInfo where
  scheduleItems : List ScheduleItem
deriving DecidableEq, Repr

/-- The fields read from a data endpoint payload: the header title and event
time, the leaderboard sections, and the `isTba` flag. -/
structure DataInfo where
  title : String
  eventTime : Int
  leaderboardSections : List ScheduleItem
  isTba : Bool
deriving DecidableEq, Repr

/-- `get_race_details_from_matchup_url` (source lines 231-256): fetch the
matchup payload, key each schedule item through the session id map (importing
`SESSION_ID_MAP` from `constants`, which is not present under `src/`, so the
map is taken as a parameter) with the raw id as fallback, sort the session
dict by instant, and return the record named after the event title with
`tbc = false`. `matchupOf` abstracts the fetch plus JSON decode of a URL. -/
def get_race_details_from_matchup_url (matchupOf : String → MatchupInfo)
    (sessionIdMap : List (String × String)) (event : FoxEvent) : RaceIn :=
  let race_info := matchupOf event.matchupUrl
  let sessions := race_info.scheduleItems.foldl
    (fun acc item =>
      pyDictUpdate acc ((pyDictGet sessionIdMap item.id).getD item.id) item.eventTime)
    []
  let sessions := sortByKey Prod.snd sessions
  ⟨event.title, sessions, false⟩

/-- `get_race_details_from_data_url` (source lines 195-228): fetch the data
payload (`none` models a structural failure of that endpoint, which in the
source raises and would have to be caught by a caller), key the leaderboard
sections through the session id map, add the race session from the header
event time, sort by instant, and return the record named after the payload
header title with the payload `isTba` flag. -/
def get_race_details_from_data_url (dataOf : String → Option DataInfo)
    (sessionIdMap : List (String × String)) (event : FoxEvent) : Option RaceIn :=
  match dataOf event.dataUrl with
  | none => none
  | some race_info =>
    let sessions := race_info.leaderboardSections.foldl
      (fun acc s =>
        pyDictUpdate acc ((pyDictGet sessionIdMap s.id).getD s.id) s.eventTime)
      []
    let sessions := pyDictUpdate sessions "race" race_info.eventTime
    let sessions := sortByKey Prod.snd sessions
    some ⟨race_info.title, sessions, race_info.isTba⟩

/-- The race assembly loop and final build of `get_indycar_schedule`
(source lines 380-391), over the event list produced by the scraping phase.
In the source the attempt against the data endpoint and its fallback are
commented out (lines 382-387); the loop body is exactly
`race_details = get_race_details_from_matchup_url(event, api_key)`. The
`dataOf` oracle is kept as a parameter so that dependence on the data
endpoint can be stated; the source never consults it. -/
def get_indycar_schedule (dataOf : String → Option DataInfo)
    (matchupOf : String → MatchupInfo) (sessionIdMap : List (String × String))
    (events : List FoxEvent) : Sched :=
  let _ := dataOf
  build_output
    (events.map (fun ev => get_race_details_from_matchup_url matchupOf sessionIdMap ev))

/-! ### update.py: retain_past_deleted_sessions and update_schedule.

The third-party `jsondiff.diff(old, new, syntax='symmetric')` is modelled for
the regime the reconciler works in: race lists of equal length compared
index by index, each differing race pair emitted as a nested dict diff. For a
dict the symmetric syntax emits the changed keys first, then the insert
symbol, then the delete symbol, so the first key of a sessions diff carries
the label `delete` exactly when the diff holds deletions only. Session
timestamps are modelled as `Int` (ISO strings compare in instant order, and
`datetime.fromisoformat` is their identity embedding). -/

/-- Symmetric diff of two session dicts: keys with changed values (with old
and new value), keys only in the new dict, keys only in the old dict (with
the removed value). -/
structure SessionsDiff where
  changed : List (String × Int × Int)
  inserted : List (String × Int)
  removed : List (String × Int)
deriving DecidableEq, Repr

/-- Symmetric diff of two session dicts. -/
def sessionsDiff (a b : List (String × Int)) : SessionsDiff :=
  { changed := a.filterMap (fun p =>
      match pyDictGet b p.1 with
      | some w => if w ≠ p.2 then some (p.1, p.2, w) else none
      | none => none),
    inserted := b.filter (fun p => (pyDictGet a p.1).isNone),
    removed := a.filter (fun p => (pyDictGet b p.1).isNone) }

/-- Nested symmetric diff of two race records: the names of the changed
non-session fields (in field order) plus the sessions diff when nonempty. -/
structure RaceDiff where
  otherChanged : List String
  sessions : Option SessionsDiff
deriving DecidableEq, Repr

/-- Diff of two race records. -/
def raceDiff (a b : RaceOut) : RaceDiff :=
  { otherChanged :=
      (if a.name ≠ b.name then ["name"] else [])
      ++ (if a.tbc ≠ b.tbc then ["tbc"] else [])
      ++ (if a.round ≠ b.round then ["round"] else [])
      ++ (if a.slug ≠ b.slug then ["slug"] else [])
      ++ (if a.localeKey ≠ b.localeKey then ["localeKey"] else [])
      ++ (if a.longitude ≠ b.longitude then ["longitude"] else [])
      ++ (if a.latitude ≠ b.latitude then ["latitude"] else []),
    sessions :=
      let sd := sessionsDiff a.sessions b.sessions
      if sd = ⟨[], [], []⟩ then none else some sd }

/-- Default race record used for in-range list indexing. -/
def dRace : RaceOut :=
  ⟨"", [], false, 0, "", "", 0, 0⟩

/-- The race-level part of `diff(old, new, syntax='symmetric')['races']` for
race lists of equal length: the nonempty per-index diffs, keyed by index in
ascending order. -/
def racesDiff (old new : List RaceOut) : List (Nat × RaceDiff) :=
  (List.range (min old.length new.length)).filterMap (fun i =>
    let rd := raceDiff (old.getD i dRace) (new.getD i dRace)
    if rd = (⟨[], none⟩ : RaceDiff) then none else some (i, rd))

/-- Whether the first key of a sessions diff dict carries the jsondiff label
`delete`: with the symmetric emit order (changed keys, insert, delete) this
holds exactly when the diff consists of deletions only. -/
def firstKeyIsDelete (sd : SessionsDiff) : Bool :=
  sd.changed.isEmpty && sd.inserted.isEmpty && !sd.removed.isEmpty

/-- The per-index pattern check of `retain_past_deleted_sessions`
(source lines 38-43): the race diff must touch only `sessions`
(`set(val) == {'sessions'}`) and the first key of the sessions diff must be
the delete symbol; the removed dict is then taken from its first value. -/
def patternRemoved (rd : RaceDiff) : Option (List (String × Int)) :=
  match rd.sessions with
  | some sd =>
    if rd.otherChanged = [] ∧ firstKeyIsDelete sd then some sd.removed else none
  | none => none

/-- The collection loop of `retain_past_deleted_sessions` (source lines
36-50): scan the race diffs in order; STOP at the first entry that does not
match the deletion pattern (the source uses `break`, not `continue`); collect
an index when additionally every removed instant is before `now`; a matching
entry with a non-past instant is skipped but the scan continues. -/
def collectPastDeleted (now : Int) : List (Nat × RaceDiff) → List Nat
  | [] => []
  | p :: rest =>
    ((patternRemoved p.2).map (fun removed =>
      if removed.all (fun q => q.2 < now) then p.1 :: collectPastDeleted now rest
      else collectPastDeleted now rest)).getD []

/-- `retain_past_deleted_sessions` (source lines 31-55), with the current
instant `now` passed explicitly: copy the new document and overwrite each
collected race index with the old race record. -/
def retain_past_deleted_sessions (now : Int) (old new : Sched) : Sched :=
  let rdiff := racesDiff old.races new.races
  let idxs := collectPastDeleted now rdiff
  ⟨idxs.foldl (fun rs idx => rs.set idx (old.races.getD idx dRace)) new.races⟩

/-- The decision tail of `update_schedule` (source lines 76-84): apply the
past-deletion suppression, then report no update (`None`) when the remaining
diff of the old document against the reconciled new one is empty, otherwise
return the reconciled document for persistence. -/
def update_schedule_decision (now : Int) (old new : Sched) : Option Sched :=
  let n2 := retain_past_deleted_sessions now old new
  if old.races.length = n2.races.length ∧ racesDiff old.races n2.races = [] then none
  else some n2


/-! ## Lemmas about the grouping pass -/

theorem mkGroup_start (pfx : String) (n : Nat) (r : List RawSess) :
    (mkGroup pfx n r).start_dt = runStart r := rfl

theorem runStart_concat {cur : List RawSess} (e : RawSess) (h : cur ≠ []) :
    runStart (cur ++ [e]) = runStart cur := by
  cases cur with
  | nil => exact absurd rfl h
  | cons x xs => rfl

theorem runEnd_concat (l : List RawSess) (e : RawSess) :
    runEnd (l ++ [e]) = e.end_dt := by
  induction l with
  | nil => rfl
  | cons x l ih =>
    cases l with
    | nil => rfl
    | cons y l' => exact ih

theorem runEnd_getLast {l : List RawSess} {x : RawSess}
    (h : l.getLast? = some x) : runEnd l = x.end_dt := by
  induction l with
  | nil => simp at h
  | cons a l ih =>
    cases l with
    | nil =>
      simp [List.getLast?] at h
      simp [runEnd, h]
    | cons b l' =>
      have hb : (b :: l').getLast? = some x := by
        rwa [List.getLast?_cons_cons] at h
      exact ih hb

theorem enumKeyedFrom_concat (pfx : String) (r : List RawSess) :
    ∀ (rs : List (List RawSess)) (n : Nat),
      enumKeyedFrom pfx n (rs ++ [r])
        = enumKeyedFrom pfx n rs ++ [(n + rs.length, mkGroup pfx (n + rs.length) r)] := by
  intro rs
  induction rs with
  | nil => intro n; simp [enumKeyedFrom]
  | cons r0 rs ih =>
    intro n
    calc enumKeyedFrom pfx n ((r0 :: rs) ++ [r])
        = (n, mkGroup pfx n r0) :: enumKeyedFrom pfx (n + 1) (rs ++ [r]) := rfl
      _ = (n, mkGroup pfx n r0)
            :: (enumKeyedFrom pfx (n + 1) rs
                ++ [(n + 1 + rs.length, mkGroup pfx (n + 1 + rs.length) r)]) := by
          rw [ih (n + 1)]
      _ = enumKeyedFrom pfx n (r0 :: rs)
            ++ [(n + (r0 :: rs).length, mkGroup pfx (n + (r0 :: rs).length) r)] := by
          have hl : n + (r0 :: rs).length = n + 1 + rs.length := by
            simp [List.length_cons]; omega
          rw [hl]
          simp [enumKeyedFrom]

theorem enumKeyedFrom_key_lt (pfx : String) :
    ∀ (rs : List (List RawSess)) (n : Nat) (p : Nat × Sess),
      p ∈ enumKeyedFrom pfx n rs → p.1 < n + rs.length := by
  intro rs
  induction rs with
  | nil => intro n p hp; simp [enumKeyedFrom] at hp
  | cons r rs ih =>
    intro n p hp
    simp only [enumKeyedFrom, List.mem_cons] at hp
    rcases hp with h | h
    · subst h; simp
    · have := ih (n + 1) p h
      simp only [List.length_cons]
      omega

theorem pyDictGet_concat {ν : Type} {d : List (Nat × ν)} {k : Nat} {v : ν}
    (h : ∀ p ∈ d, p.1 ≠ k) : pyDictGet (d ++ [(k, v)]) k = some v := by
  induction d with
  | nil =>
    unfold pyDictGet
    rw [List.nil_append, List.find?_cons_of_pos]
    · rfl
    · simp
  | cons p d ih =>
    have hp : p.1 ≠ k := h p (by simp)
    have ih' := ih (fun q hq => h q (List.mem_cons_of_mem _ hq))
    unfold pyDictGet at ih' ⊢
    rw [List.cons_append, List.find?_cons_of_neg]
    · exact ih'
    · simp [hp]

theorem pyDictUpdate_hit {ν : Type} {d : List (Nat × ν)} {k : Nat} {v w : ν}
    (h : ∀ p ∈ d, p.1 ≠ k) : pyDictUpdate (d ++ [(k, v)]) k w = d ++ [(k, w)] := by
  have hany : ((d ++ [(k, v)]).any (fun p => decide (p.1 = k))) = true := by
    simp
  unfold pyDictUpdate
  rw [if_pos hany, List.map_append]
  congr 1
  · calc d.map (fun p => if p.1 = k then (k, w) else p)
        = d.map id := List.map_congr_left (fun p hp => by simp [h p hp])
      _ = d := List.map_id d
  · simp

theorem pyDictUpdate_fresh {ν : Type} {d : List (Nat × ν)} {k : Nat} {v : ν}
    (h : ∀ p ∈ d, p.1 ≠ k) : pyDictUpdate d k v = d ++ [(k, v)] := by
  have hany : ((d.any (fun p => decide (p.1 = k))) = true) → False := by
    intro hc
    simp only [List.any_eq_true, decide_eq_true_eq] at hc
    obtain ⟨p, hp, hpk⟩ := hc
    exact h p hp hpk
  unfold pyDictUpdate
  rw [if_neg hany]

theorem groupGo_spec (pfx : String) :
    ∀ (rest : List RawSess) (prev : RawSess) (acc : List (List RawSess))
      (cur : List RawSess), cur ≠ [] → cur.getLast? = some prev →
      groupGo pfx rest prev (enumKeyedFrom pfx 1 (acc ++ [cur])) (acc.length + 1)
        = enumKeyedFrom pfx 1 (gapSplitGo prev cur acc rest) := by
  intro rest
  induction rest with
  | nil => intro prev acc cur _ _; rfl
  | cons e rest ih =>
    intro prev acc cur hne hlast
    have hkeys : ∀ p ∈ enumKeyedFrom pfx 1 acc, p.1 ≠ acc.length + 1 := by
      intro p hp
      have := enumKeyedFrom_key_lt pfx acc 1 p hp
      omega
    have hconcat : enumKeyedFrom pfx 1 (acc ++ [cur])
        = enumKeyedFrom pfx 1 acc
          ++ [(acc.length + 1, mkGroup pfx (acc.length + 1) cur)] := by
      rw [enumKeyedFrom_concat pfx cur acc 1, Nat.add_comm 1 acc.length]
    by_cases h : e.start_dt - prev.end_dt < 3600
    · -- the entry merges into the open run
      have hget : pyDictGet (enumKeyedFrom pfx 1 (acc ++ [cur])) (acc.length + 1)
          = some (mkGroup pfx (acc.length + 1) cur) := by
        rw [hconcat]
        exact pyDictGet_concat hkeys
      have hval : (⟨pfx ++ toString (acc.length + 1), none, runStart cur, e.end_dt⟩ : Sess)
          = mkGroup pfx (acc.length + 1) (cur ++ [e]) := by
        simp [mkGroup, runStart_concat e hne, runEnd_concat]
      have hupd : pyDictUpdate (enumKeyedFrom pfx 1 (acc ++ [cur])) (acc.length + 1)
            ⟨pfx ++ toString (acc.length + 1), none, runStart cur, e.end_dt⟩
          = enumKeyedFrom pfx 1 (acc ++ [cur ++ [e]]) := by
        rw [hval, hconcat, pyDictUpdate_hit hkeys,
          enumKeyedFrom_concat pfx (cur ++ [e]) acc 1, Nat.add_comm 1 acc.length]
      have hstep : groupGo pfx (e :: rest) prev
            (enumKeyedFrom pfx 1 (acc ++ [cur])) (acc.length + 1)
          = groupGo pfx rest e (enumKeyedFrom pfx 1 (acc ++ [cur ++ [e]]))
              (acc.length + 1) := by
        simp only [groupGo, if_pos h, hget, Option.map_some', Option.getD_some,
          mkGroup_start]
        rw [hupd]
      rw [hstep]
      have hsplit : gapSplitGo prev cur acc (e :: rest)
          = gapSplitGo e (cur ++ [e]) acc rest := by
        simp only [gapSplitGo, if_pos h]
      rw [hsplit]
      exact ih e acc (cur ++ [e]) (by simp) (by simp)
    · -- the entry opens a new run
      have hkeys2 : ∀ p ∈ enumKeyedFrom pfx 1 (acc ++ [cur]), p.1 ≠ acc.length + 1 + 1 := by
        intro p hp
        have := enumKeyedFrom_key_lt pfx (acc ++ [cur]) 1 p hp
        simp only [List.length_append, List.length_cons, List.length_nil] at this
        omega
      have hval2 : (⟨pfx ++ toString (acc.length + 1 + 1), none, e.start_dt, e.end_dt⟩ : Sess)
          = mkGroup pfx (acc.length + 1 + 1) [e] := rfl
      have hconcat3 : enumKeyedFrom pfx 1 ((acc ++ [cur]) ++ [[e]])
          = enumKeyedFrom pfx 1 (acc ++ [cur])
            ++ [(acc.length + 1 + 1, mkGroup pfx (acc.length + 1 + 1) [e])] := by
        rw [enumKeyedFrom_concat pfx [e] (acc ++ [cur]) 1]
        have hl : 1 + (acc ++ [cur]).length = acc.length + 1 + 1 := by
          simp only [List.length_append, List.length_cons, List.length_nil]
          omega
        rw [hl]
      have hupd : pyDictUpdate (enumKeyedFrom pfx 1 (acc ++ [cur])) (acc.length + 1 + 1)
            ⟨pfx ++ toString (acc.length + 1 + 1), none, e.start_dt, e.end_dt⟩
          = enumKeyedFrom pfx 1 ((acc ++ [cur]) ++ [[e]]) := by
        rw [hval2, pyDictUpdate_fresh hkeys2, hconcat3]
      have hstep : groupGo pfx (e :: rest) prev
            (enumKeyedFrom pfx 1 (acc ++ [cur])) (acc.length + 1)
          = groupGo pfx rest e (enumKeyedFrom pfx 1 ((acc ++ [cur]) ++ [[e]]))
              (acc.length + 1 + 1) := by
        simp only [groupGo, if_neg h]
        rw [hupd]
      rw [hstep]
      have hsplit : gapSplitGo prev cur acc (e :: rest)
          = gapSplitGo e [e] (acc ++ [cur]) rest := by
        simp only [gapSplitGo, if_neg h]
      rw [hsplit]
      have hlen : (acc ++ [cur]).length = acc.length + 1 := by
        simp
      have := ih e (acc ++ [cur]) [e] (by simp) (by simp)
      rw [hlen] at this
      exact this

theorem groupPass_eq (pfx bareKey bareTitle : String) (es : List RawSess) :
    groupPass pfx bareKey bareTitle es
      = collapseSingle bareKey bareTitle (specGroups pfx (gapSplit es)) := by
  cases es with
  | nil => rfl
  | cons e rest =>
    have h := groupGo_spec pfx rest e [] [e] (by simp) (by simp)
    simp only [List.length_nil, Nat.zero_add, List.nil_append] at h
    have h0 : pyDictUpdate ([] : List (Nat × Sess)) 1
        ⟨pfx ++ toString 1, none, e.start_dt, e.end_dt⟩
        = enumKeyedFrom pfx 1 [[e]] := by
      rw [pyDictUpdate_fresh (by simp)]
      rfl
    simp only [groupPass]
    rw [h0, h]
    rfl

theorem gapSplitGo_ne_nil :
    ∀ (xs : List RawSess) (prev : RawSess) (cur : List RawSess)
      (acc : List (List RawSess)), gapSplitGo prev cur acc xs ≠ [] := by
  intro xs
  induction xs with
  | nil => intro prev cur acc; simp [gapSplitGo]
  | cons e xs ih =>
    intro prev cur acc
    by_cases h : e.start_dt - prev.end_dt < 3600
    · simp only [gapSplitGo, if_pos h]; exact ih e (cur ++ [e]) acc
    · simp only [gapSplitGo, if_neg h]; exact ih e [e] (acc ++ [cur])

theorem gapSplitGo_separated :
    ∀ (xs : List RawSess) (prev : RawSess) (cur : List RawSess)
      (acc : List (List RawSess)), Separated prev xs →
      gapSplitGo prev cur acc xs = acc ++ [cur] ++ xs.map (fun x => [x]) := by
  intro xs
  induction xs with
  | nil => intro prev cur acc _; simp [gapSplitGo]
  | cons e xs ih =>
    intro prev cur acc hsep
    simp only [Separated] at hsep
    have hnot : ¬ (e.start_dt - prev.end_dt < 3600) := by omega
    simp only [gapSplitGo, if_neg hnot]
    rw [ih e [e] (acc ++ [cur]) hsep.2]
    simp

theorem gapsOK_replace_last :
    ∀ (acc : List (List RawSess)) (c c' : List RawSess),
      runStart c' = runStart c → GapsOK (acc ++ [c]) → GapsOK (acc ++ [c']) := by
  intro acc
  induction acc with
  | nil => intro c c' _ _; simp [GapsOK]
  | cons a acc ih =>
    intro c c' hs h
    cases acc with
    | nil =>
      simp only [List.nil_append, List.cons_append, GapsOK] at h ⊢
      exact ⟨by rw [hs]; exact h.1, h.2⟩
    | cons b acc' =>
      simp only [List.cons_append, GapsOK] at h ⊢
      exact ⟨h.1, ih c c' hs h.2⟩

theorem gapsOK_push :
    ∀ (acc : List (List RawSess)) (c z : List RawSess),
      GapsOK (acc ++ [c]) → runStart z - runEnd c ≥ 3600 →
      GapsOK ((acc ++ [c]) ++ [z]) := by
  intro acc
  induction acc with
  | nil =>
    intro c z _ hz
    simp only [List.nil_append, List.cons_append, GapsOK]
    exact ⟨hz, trivial⟩
  | cons a acc ih =>
    intro c z h hz
    cases acc with
    | nil =>
      simp only [List.nil_append, List.cons_append, GapsOK] at h ⊢
      exact ⟨h.1, hz, trivial⟩
    | cons b acc' =>
      simp only [List.cons_append, GapsOK] at h ⊢
      exact ⟨h.1, ih c z h.2 hz⟩

theorem gapSplitGo_gapsOK :
    ∀ (xs : List RawSess) (prev : RawSess) (cur : List RawSess)
      (acc : List (List RawSess)),
      GapsOK (acc ++ [cur]) → cur.getLast? = some prev →
      GapsOK (gapSplitGo prev cur acc xs) := by
  intro xs
  induction xs with
  | nil => intro prev cur acc h _; simpa [gapSplitGo] using h
  | cons e xs ih =>
    intro prev cur acc h hlast
    have hne : cur ≠ [] := by intro hc; subst hc; simp at hlast
    by_cases hc : e.start_dt - prev.end_dt < 3600
    · simp only [gapSplitGo, if_pos hc]
      exact ih e (cur ++ [e]) acc
        (gapsOK_replace_last acc cur (cur ++ [e]) (runStart_concat e hne) h)
        (by simp)
    · simp only [gapSplitGo, if_neg hc]
      have hz : runStart [e] - runEnd cur ≥ 3600 := by
        have he : runEnd cur = prev.end_dt := runEnd_getLast hlast
        simp only [runStart, he]
        omega
      exact ih e [e] (acc ++ [cur]) (gapsOK_push acc cur [e] h hz) (by simp)

theorem gapSplit_gapsOK (es : List RawSess) : GapsOK (gapSplit es) := by
  cases es with
  | nil => trivial
  | cons e rest => exact gapSplitGo_gapsOK rest e [e] [] trivial (by simp)

theorem specGroupsFrom_sep (pfx : String) :
    ∀ (rs : List (List RawSess)) (n : Nat) (r0 : List RawSess),
      GapsOK (r0 :: rs) →
      Separated (sessToEntry (mkGroup pfx n r0))
        ((specGroupsFrom pfx (n + 1) rs).map sessToEntry) := by
  intro rs
  induction rs with
  | nil => intro n r0 _; trivial
  | cons r rs ih =>
    intro n r0 h
    simp only [GapsOK] at h
    have hcons : (specGroupsFrom pfx (n + 1) (r :: rs)).map sessToEntry
        = sessToEntry (mkGroup pfx (n + 1) r)
          :: (specGroupsFrom pfx (n + 1 + 1) rs).map sessToEntry := rfl
    rw [hcons]
    exact ⟨h.1, ih (n + 1) r h.2⟩

theorem specGroupsFrom_fixpoint (pfx : String) :
    ∀ (rs : List (List RawSess)) (n : Nat),
      specGroupsFrom pfx n
          (((specGroupsFrom pfx n rs).map sessToEntry).map (fun x => [x]))
        = specGroupsFrom pfx n rs := by
  intro rs
  induction rs with
  | nil => intro n; rfl
  | cons r rs ih =>
    intro n
    show mkGroup pfx n [sessToEntry (mkGroup pfx n r)]
        :: specGroupsFrom pfx (n + 1)
            (((specGroupsFrom pfx (n + 1) rs).map sessToEntry).map (fun x => [x]))
        = mkGroup pfx n r :: specGroupsFrom pfx (n + 1) rs
    rw [ih (n + 1)]
    rfl

theorem specGroupsFrom_length (pfx : String) :
    ∀ (rs : List (List RawSess)) (n : Nat),
      (specGroupsFrom pfx n rs).length = rs.length := by
  intro rs
  induction rs with
  | nil => intro n; rfl
  | cons r rs ih =>
    intro n
    show (mkGroup pfx n r :: specGroupsFrom pfx (n + 1) rs).length = (r :: rs).length
    simp [ih (n + 1)]

theorem collapseSingle_of_ne_one (bk bt : String) :
    ∀ (l : List Sess), l.length ≠ 1 → collapseSingle bk bt l = l := by
  intro l h
  match l with
  | [] => rfl
  | [g] => exact absurd rfl h
  | a :: b :: l => rfl

theorem specGroups_eq_from (pfx : String) (rs : List (List RawSess)) :
    specGroups pfx rs = specGroupsFrom pfx 1 rs := rfl

theorem groupPass_idem (pfx bk bt : String) (es : List RawSess) :
    groupPass pfx bk bt ((groupPass pfx bk bt es).map sessToEntry)
      = groupPass pfx bk bt es := by
  cases es with
  | nil => rfl
  | cons e rest =>
    rw [groupPass_eq pfx bk bt (e :: rest)]
    rcases hrs : gapSplit (e :: rest) with _ | ⟨r1, rs'⟩
    · exact absurd hrs (gapSplitGo_ne_nil rest e [e] [])
    rcases rs' with _ | ⟨r2, rs''⟩
    · -- exactly one run
      rfl
    · -- at least two runs: the collapse is the identity and re-splitting the
      -- group spans gives singleton runs because consecutive runs are at
      -- least one hour apart
      have hGaps : GapsOK (r1 :: r2 :: rs'') := by
        rw [← hrs]; exact gapSplit_gapsOK (e :: rest)
      have hlen2 : (specGroups pfx (r1 :: r2 :: rs'')).length ≠ 1 := by
        rw [specGroups_eq_from, specGroupsFrom_length]
        simp
      rw [collapseSingle_of_ne_one bk bt _ hlen2]
      rw [groupPass_eq]
      have hsep := specGroupsFrom_sep pfx (r2 :: rs'') 1 r1 hGaps
      have hmap : (specGroups pfx (r1 :: r2 :: rs'')).map sessToEntry
          = sessToEntry (mkGroup pfx 1 r1)
            :: (specGroupsFrom pfx (1 + 1) (r2 :: rs'')).map sessToEntry := rfl
      have hsplit : gapSplit ((specGroups pfx (r1 :: r2 :: rs'')).map sessToEntry)
          = ((specGroups pfx (r1 :: r2 :: rs'')).map sessToEntry).map (fun x => [x]) := by
        rw [hmap]
        show gapSplitGo _ [_] [] _ = _
        rw [gapSplitGo_separated _ _ _ _ hsep]
        simp
      rw [hsplit, specGroups_eq_from pfx (r1 :: r2 :: rs''),
        specGroups_eq_from pfx
          (((specGroupsFrom pfx 1 (r1 :: r2 :: rs'')).map sessToEntry).map (fun x => [x])),
        specGroupsFrom_fixpoint pfx (r1 :: r2 :: rs'') 1]
      exact collapseSingle_of_ne_one bk bt _
        (by rw [specGroupsFrom_length]; simp)

/-- C2: for every entry list, the grouping pass is exactly the run
decomposition described by the spec: a new group starts at the first entry or
when the gap from the previous entry end to the current entry start is at
least one hour (`gapSplit`); each group keeps the start of its first member
and the end of its most recently merged member (`mkGroup` via `specGroups`),
keyed `qualifying<N>` / `race<N>` with `N` counted from 1; a single group
collapses to the bare key with display title `Qualifying` / `Race`
(`collapseSingle`). The two concrete conjuncts check the spec examples: two
qualifying entries 30 minutes apart merge into one group keyed `qualifying`,
and two entries 90 minutes apart stay `qualifying1` / `qualifying2`. -/
theorem C2_grouping_characterization :
    (∀ qualis : List RawSess,
      group_qualifying qualis
        = collapseSingle "qualifying" "Qualifying"
            (specGroups "qualifying" (gapSplit qualis)))
    ∧ (∀ races : List RawSess,
      group_races races
        = collapseSingle "race" "Race" (specGroups "race" (gapSplit races)))
    ∧ group_qualifying [⟨"Q1", 0, 3600⟩, ⟨"Q2", 5400, 9000⟩]
        = [⟨"qualifying", some "Qualifying", 0, 9000⟩]
    ∧ group_qualifying [⟨"Q1", 0, 3600⟩, ⟨"Q2", 9000, 12600⟩]
        = [⟨"qualifying1", none, 0, 3600⟩, ⟨"qualifying2", none, 9000, 12600⟩] :=
  ⟨fun qualis => groupPass_eq "qualifying" "qualifying" "Qualifying" qualis,
   fun races => groupPass_eq "race" "race" "Race" races,
   by decide, by decide⟩

/-- C5: the grouping pass is idempotent: feeding the produced groups back in
as plain entries (each group span taken as one entry via `sessToEntry`)
returns the same groups, with no further merging, for `group_qualifying` and
`group_races` alike. -/
theorem C5_grouping_idempotent :
    (∀ qualis : List RawSess,
      group_qualifying ((group_qualifying qualis).map sessToEntry)
        = group_qualifying qualis)
    ∧ (∀ races : List RawSess,
      group_races ((group_races races).map sessToEntry) = group_races races) :=
  ⟨fun qualis => groupPass_idem "qualifying" "qualifying" "Qualifying" qualis,
   fun races => groupPass_idem "race" "race" "Race" races⟩


/-! ## Lemmas about the session classifier -/

theorem countPractice_nil : countPractice [] = 0 := rfl

theorem countPractice_cons_pos {a : RawSess} {l : List RawSess}
    (h : hasSub "practice" (pyLower a.title) = true) :
    countPractice (a :: l) = countPractice l + 1 := by
  simp [countPractice, List.filter, h]

theorem countPractice_cons_neg {a : RawSess} {l : List RawSess}
    (h : hasSub "practice" (pyLower a.title) = false) :
    countPractice (a :: l) = countPractice l := by
  simp [countPractice, List.filter, h]

theorem mem_insertByKey {α : Type} (key : α → Int) (e x : α) :
    ∀ l : List α, x ∈ insertByKey key e l ↔ x = e ∨ x ∈ l := by
  intro l
  induction l with
  | nil => simp [insertByKey]
  | cons f fs ih =>
    simp only [insertByKey]
    by_cases h : key f ≤ key e
    · rw [if_pos h]
      simp only [List.mem_cons, ih]
      tauto
    · rw [if_neg h]
      simp only [List.mem_cons]

theorem mem_sortByKey {α : Type} (key : α → Int) (x : α) (l : List α) :
    x ∈ sortByKey key l ↔ x ∈ l := by
  suffices h : ∀ acc, x ∈ l.foldl (fun a e => insertByKey key e a) acc
      ↔ x ∈ acc ∨ x ∈ l by
    simpa [sortByKey] using h []
  induction l with
  | nil => intro acc; simp
  | cons a l ih =>
    intro acc
    simp only [List.foldl_cons]
    rw [ih (insertByKey key a acc), mem_insertByKey]
    simp only [List.mem_cons]
    tauto

theorem mem_clean_sessions_of_mem_cleanLoop {x : Sess} {name : String}
    {ss : List RawSess}
    (h : x ∈ (cleanLoop (sortByKey RawSess.start_dt ss) 1).1) :
    x ∈ clean_sessions name ss := by
  unfold clean_sessions
  rw [mem_sortByKey]
  simp only [List.mem_append]
  exact Or.inl (Or.inl h)

theorem cleanLoop_practice :
    ∀ (rs : List RawSess) (pn : Nat) (i : Nat) (s : RawSess),
      rs.get? i = some s → hasSub "practice" (pyLower s.title) = true →
      (⟨"practice" ++ toString (pn + countPractice (rs.take i)), some s.title,
        s.start_dt, s.end_dt⟩ : Sess) ∈ (cleanLoop rs pn).1 := by
  intro rs
  induction rs with
  | nil => intro pn i s h _; simp at h
  | cons a rs ih =>
    intro pn i s hget hp
    cases i with
    | zero =>
      rw [List.get?_cons_zero, Option.some.injEq] at hget
      subst hget
      simp only [List.take_zero, countPractice_nil, Nat.add_zero]
      simp only [cleanLoop, hp]
      simp
    | succ j =>
      rw [List.get?_cons_succ] at hget
      by_cases hpa : hasSub "practice" (pyLower a.title) = true
      · have ihj := ih (pn + 1) j s hget hp
        have hcount : pn + countPractice ((a :: rs).take (j + 1))
            = pn + 1 + countPractice (rs.take j) := by
          rw [List.take_succ_cons, countPractice_cons_pos hpa]
          omega
        rw [hcount]
        simp only [cleanLoop, hpa]
        simp only [if_true]
        exact List.mem_cons_of_mem _ ihj
      · simp only [Bool.not_eq_true] at hpa
        have hcount : pn + countPractice ((a :: rs).take (j + 1))
            = pn + countPractice (rs.take j) := by
          rw [List.take_succ_cons, countPractice_cons_neg hpa]
        rw [hcount]
        have ihj := ih pn j s hget hp
        simp only [cleanLoop, hpa]
        by_cases hw : hasSub "warmup" (pyLower a.title) = true
        · simp only [hw]
          simp only [Bool.false_eq_true, if_false, if_true]
          exact List.mem_cons_of_mem _ ihj
        · simp only [Bool.not_eq_true] at hw
          simp only [hw]
          by_cases hq : hasSub "quali" (pyLower a.title) = true
          · simp only [hq, Bool.false_eq_true, if_false, if_true]
            exact ihj
          · simp only [Bool.not_eq_true] at hq
            simp only [hq]
            by_cases hr : hasSub "race" (pyLower a.title) = true
            · simp only [hr, Bool.false_eq_true, if_false, if_true]
              exact ihj
            · simp only [Bool.not_eq_true] at hr
              simp only [hr, Bool.false_eq_true, if_false]
              exact List.mem_cons_of_mem _ ihj

theorem cleanLoop_warmup :
    ∀ (rs : List RawSess) (pn : Nat) (s : RawSess), s ∈ rs →
      hasSub "practice" (pyLower s.title) = false →
      hasSub "warmup" (pyLower s.title) = true →
      (⟨"warmup", some s.title, s.start_dt, s.end_dt⟩ : Sess) ∈ (cleanLoop rs pn).1 := by
  intro rs
  induction rs with
  | nil => intro pn s h _ _; simp at h
  | cons a rs ih =>
    intro pn s hmem hp hw
    rcases List.mem_cons.mp hmem with hEq | htail
    · subst hEq
      simp only [cleanLoop, hp, hw, Bool.false_eq_true, if_false, if_true]
      simp
    · by_cases hpa : hasSub "practice" (pyLower a.title) = true
      · simp only [cleanLoop, hpa, if_true]
        exact List.mem_cons_of_mem _ (ih (pn + 1) s htail hp hw)
      · simp only [Bool.not_eq_true] at hpa
        simp only [cleanLoop, hpa, Bool.false_eq_true, if_false]
        by_cases hwa : hasSub "warmup" (pyLower a.title) = true
        · simp only [hwa, if_true]
          exact List.mem_cons_of_mem _ (ih pn s htail hp hw)
        · simp only [Bool.not_eq_true] at hwa
          simp only [hwa, Bool.false_eq_true, if_false]
          by_cases hqa : hasSub "quali" (pyLower a.title) = true
          · simp only [hqa, if_true]
            exact ih pn s htail hp hw
          · simp only [Bool.not_eq_true] at hqa
            simp only [hqa, Bool.false_eq_true, if_false]
            by_cases hra : hasSub "race" (pyLower a.title) = true
            · simp only [hra, if_true]
              exact ih pn s htail hp hw
            · simp only [Bool.not_eq_true] at hra
              simp only [hra, Bool.false_eq_true, if_false]
              exact List.mem_cons_of_mem _ (ih pn s htail hp hw)

theorem cleanLoop_quali :
    ∀ (rs : List RawSess) (pn : Nat) (s : RawSess), s ∈ rs →
      hasSub "practice" (pyLower s.title) = false →
      hasSub "warmup" (pyLower s.title) = false →
      hasSub "quali" (pyLower s.title) = true →
      s ∈ (cleanLoop rs pn).2.1 := by
  intro rs
  induction rs with
  | nil => intro pn s h _ _ _; simp at h
  | cons a rs ih =>
    intro pn s hmem hp hw hq
    rcases List.mem_cons.mp hmem with hEq | htail
    · subst hEq
      simp only [cleanLoop, hp, hw, hq, Bool.false_eq_true, if_false, if_true]
      simp
    · by_cases hpa : hasSub "practice" (pyLower a.title) = true
      · simp only [cleanLoop, hpa, if_true]
        exact ih (pn + 1) s htail hp hw hq
      · simp only [Bool.not_eq_true] at hpa
        simp only [cleanLoop, hpa, Bool.false_eq_true, if_false]
        by_cases hwa : hasSub "warmup" (pyLower a.title) = true
        · simp only [hwa, if_true]
          exact ih pn s htail hp hw hq
        · simp only [Bool.not_eq_true] at hwa
          simp only [hwa, Bool.false_eq_true, if_false]
          by_cases hqa : hasSub "quali" (pyLower a.title) = true
          · simp only [hqa, if_true]
            exact List.mem_cons_of_mem _ (ih pn s htail hp hw hq)
          · simp only [Bool.not_eq_true] at hqa
            simp only [hqa, Bool.false_eq_true, if_false]
            by_cases hra : hasSub "race" (pyLower a.title) = true
            · simp only [hra, if_true]
              exact ih pn s htail hp hw hq
            · simp only [Bool.not_eq_true] at hra
              simp only [hra, Bool.false_eq_true, if_false]
              exact ih pn s htail hp hw hq

theorem cleanLoop_race :
    ∀ (rs : List RawSess) (pn : Nat) (s : RawSess), s ∈ rs →
      hasSub "practice" (pyLower s.title) = false →
      hasSub "warmup" (pyLower s.title) = false →
      hasSub "quali" (pyLower s.title) = false →
      hasSub "race" (pyLower s.title) = true →
      s ∈ (cleanLoop rs pn).2.2 := by
  intro rs
  induction rs with
  | nil => intro pn s h _ _ _ _; simp at h
  | cons a rs ih =>
    intro pn s hmem hp hw hq hr
    rcases List.mem_cons.mp hmem with hEq | htail
    · subst hEq
      simp only [cleanLoop, hp, hw, hq, hr, Bool.false_eq_true, if_false, if_true]
      simp
    · by_cases hpa : hasSub "practice" (pyLower a.title) = true
      · simp only [cleanLoop, hpa, if_true]
        exact ih (pn + 1) s htail hp hw hq hr
      · simp only [Bool.not_eq_true] at hpa
        simp only [cleanLoop, hpa, Bool.false_eq_true, if_false]
        by_cases hwa : hasSub "warmup" (pyLower a.title) = true
        · simp only [hwa, if_true]
          exact ih pn s htail hp hw hq hr
        · simp only [Bool.not_eq_true] at hwa
          simp only [hwa, Bool.false_eq_true, if_false]
          by_cases hqa : hasSub "quali" (pyLower a.title) = true
          · simp only [hqa, if_true]
            exact ih pn s htail hp hw hq hr
          · simp only [Bool.not_eq_true] at hqa
            simp only [hqa, Bool.false_eq_true, if_false]
            by_cases hra : hasSub "race" (pyLower a.title) = true
            · simp only [hra, if_true]
              exact List.mem_cons_of_mem _ (ih pn s htail hp hw hq hr)
            · simp only [Bool.not_eq_true] at hra
              simp only [hra, Bool.false_eq_true, if_false]
              exact ih pn s htail hp hw hq hr

theorem cleanLoop_fallback :
    ∀ (rs : List RawSess) (pn : Nat) (s : RawSess), s ∈ rs →
      hasSub "practice" (pyLower s.title) = false →
      hasSub "warmup" (pyLower s.title) = false →
      hasSub "quali" (pyLower s.title) = false →
      hasSub "race" (pyLower s.title) = false →
      (⟨s.title, some s.title, s.start_dt, s.end_dt⟩ : Sess) ∈ (cleanLoop rs pn).1 := by
  intro rs
  induction rs with
  | nil => intro pn s h _ _ _ _; simp at h
  | cons a rs ih =>
    intro pn s hmem hp hw hq hr
    rcases List.mem_cons.mp hmem with hEq | htail
    · subst hEq
      simp only [cleanLoop, hp, hw, hq, hr, Bool.false_eq_true, if_false]
      simp
    · by_cases hpa : hasSub "practice" (pyLower a.title) = true
      · simp only [cleanLoop, hpa, if_true]
        exact List.mem_cons_of_mem _ (ih (pn + 1) s htail hp hw hq hr)
      · simp only [Bool.not_eq_true] at hpa
        simp only [cleanLoop, hpa, Bool.false_eq_true, if_false]
        by_cases hwa : hasSub "warmup" (pyLower a.title) = true
        · simp only [hwa, if_true]
          exact List.mem_cons_of_mem _ (ih pn s htail hp hw hq hr)
        · simp only [Bool.not_eq_true] at hwa
          simp only [hwa, Bool.false_eq_true, if_false]
          by_cases hqa : hasSub "quali" (pyLower a.title) = true
          · simp only [hqa, if_true]
            exact ih pn s htail hp hw hq hr
          · simp only [Bool.not_eq_true] at hqa
            simp only [hqa, Bool.false_eq_true, if_false]
            by_cases hra : hasSub "race" (pyLower a.title) = true
            · simp only [hra, if_true]
              exact ih pn s htail hp hw hq hr
            · simp only [Bool.not_eq_true] at hra
              simp only [hra, Bool.false_eq_true, if_false]
              exact List.mem_cons_of_mem _ (ih pn s htail hp hw hq hr)


/-- C3: keyword classification in `clean_sessions` is a case-insensitive
substring match tried in the fixed order practice, warmup, quali(fying),
race, fallback, on the start-time-sorted entry list. Conjuncts: (1) an entry
whose lowered title contains "practice" is keyed `practice<k>` where `k`
counts the practice-matching entries up to and including it in the sorted
list, starting at 1, regardless of any other keyword in the title; (2) an
entry without "practice" but with "warmup" is keyed `warmup` regardless of
any other keyword (in particular one whose title also contains "race"); (3)
an entry without "practice"/"warmup" but with "quali" is deferred to the
qualifying side list even when it also contains "race"; (4) an entry with
none of those but with "race" is deferred to the race side list; (5) the
concrete check of the spec example: a title holding both "warmup" and "race"
substrings is classified as warmup. -/
theorem C3_classification_priority :
    (∀ (name : String) (ss : List RawSess) (i : Nat) (s : RawSess),
      (sortByKey RawSess.start_dt ss).get? i = some s →
      hasSub "practice" (pyLower s.title) = true →
      (⟨"practice"
          ++ toString (1 + countPractice ((sortByKey RawSess.start_dt ss).take i)),
        some s.title, s.start_dt, s.end_dt⟩ : Sess) ∈ clean_sessions name ss)
    ∧ (∀ (name : String) (ss : List RawSess) (s : RawSess),
      s ∈ sortByKey RawSess.start_dt ss →
      hasSub "practice" (pyLower s.title) = false →
      hasSub "warmup" (pyLower s.title) = true →
      (⟨"warmup", some s.title, s.start_dt, s.end_dt⟩ : Sess) ∈ clean_sessions name ss)
    ∧ (∀ (rs : List RawSess) (pn : Nat) (s : RawSess), s ∈ rs →
      hasSub "practice" (pyLower s.title) = false →
      hasSub "warmup" (pyLower s.title) = false →
      hasSub "quali" (pyLower s.title) = true →
      s ∈ (cleanLoop rs pn).2.1)
    ∧ (∀ (rs : List RawSess) (pn : Nat) (s : RawSess), s ∈ rs →
      hasSub "practice" (pyLower s.title) = false →
      hasSub "warmup" (pyLower s.title) = false →
      hasSub "quali" (pyLower s.title) = false →
      hasSub "race" (pyLower s.title) = true →
      s ∈ (cleanLoop rs pn).2.2)
    ∧ clean_sessions "r" [⟨"Warmup Race", 0, 10⟩]
        = [⟨"warmup", some "Warmup Race", 0, 10⟩] := by
  refine ⟨?_, ?_, ?_, ?_, by decide⟩
  · intro name ss i s hget hp
    exact mem_clean_sessions_of_mem_cleanLoop
      (cleanLoop_practice (sortByKey RawSess.start_dt ss) 1 i s hget hp)
  · intro name ss s hmem hp hw
    exact mem_clean_sessions_of_mem_cleanLoop
      (cleanLoop_warmup (sortByKey RawSess.start_dt ss) 1 s hmem hp hw)
  · intro rs pn s hmem hp hw hq
    exact cleanLoop_quali rs pn s hmem hp hw hq
  · intro rs pn s hmem hp hw hq hr
    exact cleanLoop_race rs pn s hmem hp hw hq hr

/-- Witness for C3 at concrete inputs: the second practice of a two-practice
weekend is keyed `practice2`; a warmup-and-race title is keyed `warmup`; a
qualifying title also containing "race" lands in the qualifying side list; a
plain race title lands in the race side list. -/
theorem C3_classification_priority_witness :
    (⟨"practice2", some "Practice B", 100, 110⟩ : Sess)
        ∈ clean_sessions "r" [⟨"Practice A", 0, 10⟩, ⟨"Practice B", 100, 110⟩]
    ∧ (⟨"warmup", some "Warmup Race", 0, 10⟩ : Sess)
        ∈ clean_sessions "r" [⟨"Warmup Race", 0, 10⟩]
    ∧ (⟨"Qualifying Race 1", 0, 10⟩ : RawSess)
        ∈ (cleanLoop [⟨"Qualifying Race 1", 0, 10⟩] 1).2.1
    ∧ (⟨"Race 2", 0, 10⟩ : RawSess) ∈ (cleanLoop [⟨"Race 2", 0, 10⟩] 1).2.2 := by
  refine ⟨?_, ?_, ?_, ?_⟩
  · have h := C3_classification_priority.1 "r"
      [⟨"Practice A", 0, 10⟩, ⟨"Practice B", 100, 110⟩] 1
      ⟨"Practice B", 100, 110⟩ (by decide) (by decide)
    have e : ("practice" ++ toString (1 + countPractice
        ((sortByKey RawSess.start_dt
          [⟨"Practice A", 0, 10⟩, ⟨"Practice B", 100, 110⟩]).take 1)))
        = "practice2" := by decide
    rw [e] at h
    exact h
  · exact C3_classification_priority.2.1 "r" [⟨"Warmup Race", 0, 10⟩]
      ⟨"Warmup Race", 0, 10⟩ (by decide) (by decide) (by decide)
  · exact C3_classification_priority.2.2.1 [⟨"Qualifying Race 1", 0, 10⟩] 1
      ⟨"Qualifying Race 1", 0, 10⟩ (by decide) (by decide) (by decide) (by decide)
  · exact C3_classification_priority.2.2.2.1 [⟨"Race 2", 0, 10⟩] 1
      ⟨"Race 2", 0, 10⟩ (by decide) (by decide) (by decide) (by decide) (by decide)

/-- C4 counterexample: the claim predicts the title-derived key `FanFest`
(word tokens title-cased and concatenated) for the unmatched title
"Fan Fest", possibly after a practice-sequence inference; the code instead
assigns the raw title verbatim, so the only key produced is "Fan Fest" and
no entry is keyed `FanFest` and no practice key is synthesized. -/
theorem C4_fallback_counterexample :
    (clean_sessions "r" [⟨"Fan Fest", 0, 60⟩]).map Sess.session_key = ["Fan Fest"]
    ∧ ¬ (clean_sessions "r" [⟨"Fan Fest", 0, 60⟩]).map Sess.session_key = ["FanFest"]
    ∧ ¬ (clean_sessions "r" [⟨"Fan Fest", 0, 60⟩]).map Sess.session_key = ["practice1"] := by
  decide

/-- C4 amended: a session entry whose lowered title contains none of the
classification keywords (practice, warmup, quali, race) is assigned its raw
title verbatim as its session key (with a logged warning); no
practice-sequence inference and no token title-casing happens. -/
theorem C4_fallback_verbatim_title :
    ∀ (name : String) (ss : List RawSess) (s : RawSess),
      s ∈ sortByKey RawSess.start_dt ss →
      hasSub "practice" (pyLower s.title) = false →
      hasSub "warmup" (pyLower s.title) = false →
      hasSub "quali" (pyLower s.title) = false →
      hasSub "race" (pyLower s.title) = false →
      (⟨s.title, some s.title, s.start_dt, s.end_dt⟩ : Sess) ∈ clean_sessions name ss := by
  intro name ss s hmem hp hw hq hr
  exact mem_clean_sessions_of_mem_cleanLoop
    (cleanLoop_fallback (sortByKey RawSess.start_dt ss) 1 s hmem hp hw hq hr)

/-- Witness for the amended C4 at the concrete input "Fan Fest". -/
theorem C4_fallback_verbatim_title_witness :
    (⟨"Fan Fest", some "Fan Fest", 0, 60⟩ : Sess)
      ∈ clean_sessions "r" [⟨"Fan Fest", 0, 60⟩] :=
  C4_fallback_verbatim_title "r" [⟨"Fan Fest", 0, 60⟩] ⟨"Fan Fest", 0, 60⟩
    (by decide) (by decide) (by decide) (by decide) (by decide)


/-! ## Lemmas for the duplicate session key check -/

theorem length_ne_dedup_iff {α : Type} [DecidableEq α] (l : List α) :
    l.length ≠ l.dedup.length ↔ ¬ l.Nodup := by
  constructor
  · intro hne hnod
    rw [List.dedup_eq_self.mpr hnod] at hne
    exact hne rfl
  · intro hnod hleq
    apply hnod
    have hsub : List.Sublist l.dedup l := List.dedup_sublist l
    have heq : l.dedup = l := hsub.eq_of_length hleq.symm
    rw [← heq]
    exact List.nodup_dedup l

/-- C1: the tail of `parse_race_details` fails exactly when the number of
cleaned sessions differs from the cardinality of their session key set
(`List.dedup` of the keys models the Python `set`), equivalently exactly when
the cleaned session keys hold a duplicate (`¬ Nodup`), and on unique keys it
returns the race record `{name, sessions, tbc}` without error. -/
theorem C1_duplicate_session_key_check :
    ∀ (name : String) (ss : List RawSess) (tbd : Bool),
      ((∃ msg, parse_race_details name ss tbd = Except.error msg)
        ↔ (clean_sessions name ss).length
            ≠ ((clean_sessions name ss).map Sess.session_key).dedup.length)
      ∧ ((∃ msg, parse_race_details name ss tbd = Except.error msg)
        ↔ ¬ ((clean_sessions name ss).map Sess.session_key).Nodup)
      ∧ (((clean_sessions name ss).map Sess.session_key).Nodup →
        parse_race_details name ss tbd
          = Except.ok ⟨name, transform_sessions (clean_sessions name ss), tbd⟩) := by
  intro name ss tbd
  have hcond : ((clean_sessions name ss).length
        ≠ ((clean_sessions name ss).map Sess.session_key).dedup.length)
      ↔ ¬ ((clean_sessions name ss).map Sess.session_key).Nodup := by
    rw [show (clean_sessions name ss).length
        = ((clean_sessions name ss).map Sess.session_key).length by simp]
    exact length_ne_dedup_iff _
  by_cases h : (clean_sessions name ss).length
      ≠ ((clean_sessions name ss).map Sess.session_key).dedup.length
  · have herr : parse_race_details name ss tbd
        = Except.error s!"Duplicate session keys found for {name}" := by
      simp only [parse_race_details]
      rw [if_pos h]
    refine ⟨?_, ?_, ?_⟩
    · rw [herr]
      exact ⟨fun _ => h, fun _ => ⟨_, rfl⟩⟩
    · rw [herr]
      exact ⟨fun _ => hcond.mp h, fun _ => ⟨_, rfl⟩⟩
    · intro hnod
      exact absurd hnod (hcond.mp h)
  · have hok : parse_race_details name ss tbd
        = Except.ok ⟨name, transform_sessions (clean_sessions name ss), tbd⟩ := by
      simp only [parse_race_details]
      rw [if_neg h]
    have hnod : ((clean_sessions name ss).map Sess.session_key).Nodup := by
      by_contra hc
      exact h (hcond.mpr hc)
    refine ⟨?_, ?_, fun _ => hok⟩
    · rw [hok]
      constructor
      · rintro ⟨msg, hmsg⟩
        exact absurd hmsg (by simp)
      · intro hc
        exact absurd hc h
    · rw [hok]
      constructor
      · rintro ⟨msg, hmsg⟩
        exact absurd hmsg (by simp)
      · intro hc
        exact absurd hc (by simpa using hnod)

/-- Witness for C1: two warmup-titled sessions collide on the key `warmup`
and fail; a practice plus a race produce unique keys and succeed. -/
theorem C1_duplicate_session_key_check_witness :
    (∃ msg, parse_race_details "r" [⟨"Warmup", 0, 10⟩, ⟨"Warmup 2", 20, 30⟩] false
      = Except.error msg)
    ∧ parse_race_details "r" [⟨"Practice", 0, 10⟩, ⟨"Race", 20, 30⟩] false
        = Except.ok ⟨"r",
            transform_sessions (clean_sessions "r" [⟨"Practice", 0, 10⟩, ⟨"Race", 20, 30⟩]),
            false⟩ := by
  constructor
  · exact (C1_duplicate_session_key_check "r"
      [⟨"Warmup", 0, 10⟩, ⟨"Warmup 2", 20, 30⟩] false).2.1.mpr (by decide)
  · exact (C1_duplicate_session_key_check "r"
      [⟨"Practice", 0, 10⟩, ⟨"Race", 20, 30⟩] false).2.2 (by decide)

/-! ## Lemmas about build_output -/

theorem buildGo_length :
    ∀ (races : List RaceIn) (n : Nat), (buildGo n races).length = races.length := by
  intro races
  induction races with
  | nil => intro n; rfl
  | cons r rs ih =>
    intro n
    show (mkRaceOut n r :: buildGo (n + 1) rs).length = (r :: rs).length
    simp [ih (n + 1)]

theorem buildGo_round :
    ∀ (races : List RaceIn) (n : Nat),
      (buildGo n races).map RaceOut.round = List.range' n races.length := by
  intro races
  induction races with
  | nil => intro n; rfl
  | cons r rs ih =>
    intro n
    show RaceOut.round (mkRaceOut n r) :: (buildGo (n + 1) rs).map RaceOut.round
        = List.range' n (rs.length + 1)
    rw [ih (n + 1), List.range'_succ]
    rfl

theorem buildGo_get? :
    ∀ (races : List RaceIn) (n i : Nat) (r0 : RaceIn),
      races.get? i = some r0 →
      (buildGo n races).get? i = some (mkRaceOut (n + i) r0) := by
  intro races
  induction races with
  | nil => intro n i r0 h; simp at h
  | cons r rs ih =>
    intro n i r0 h
    cases i with
    | zero =>
      rw [List.get?_cons_zero, Option.some.injEq] at h
      subst h
      rfl
    | succ j =>
      rw [List.get?_cons_succ] at h
      show (buildGo (n + 1) rs).get? j = _
      rw [ih (n + 1) j r0 h]
      congr 2
      omega

theorem buildGo_fields :
    ∀ (races : List RaceIn) (n : Nat), ∀ r ∈ buildGo n races,
      r.slug = slugOf r.name ∧ r.localeKey = slugOf r.name
        ∧ r.longitude = 0 ∧ r.latitude = 0 := by
  intro races
  induction races with
  | nil => intro n r h; simp [buildGo] at h
  | cons a rs ih =>
    intro n r h
    rcases List.mem_cons.mp h with hEq | htail
    · subst hEq
      exact ⟨rfl, rfl, rfl, rfl⟩
    · exact ih (n + 1) r htail

theorem buildGo_triple :
    ∀ (races : List RaceIn) (n : Nat),
      (buildGo n races).map (fun r => (r.name, r.sessions, r.tbc))
        = races.map (fun r => (r.name, r.sessions, r.tbc)) := by
  intro races
  induction races with
  | nil => intro n; rfl
  | cons a rs ih =>
    intro n
    show ((mkRaceOut n a).name, (mkRaceOut n a).sessions, (mkRaceOut n a).tbc)
        :: (buildGo (n + 1) rs).map (fun r => (r.name, r.sessions, r.tbc))
        = (a.name, a.sessions, a.tbc) :: rs.map (fun r => (r.name, r.sessions, r.tbc))
    rw [ih (n + 1)]
    rfl

/-- C7: `build_output` stamps round numbers positionally as exactly
`1..N` in list order; `slug` and `localeKey` are equal and are the pure
function `slugOf` of the race name (lowercase after dropping characters that
are neither alphanumeric nor a space and collapsing whitespace runs to one
hyphen), so equal names give equal slugs regardless of position; the final
conjunct evaluates the slug derivation on a concrete name. -/
theorem C7_round_slug_determinism :
    (∀ races : List RaceIn,
      (build_output races).races.map RaceOut.round = List.range' 1 races.length)
    ∧ (∀ races : List RaceIn, ∀ r ∈ (build_output races).races,
      r.slug = slugOf r.name ∧ r.localeKey = slugOf r.name)
    ∧ (∀ races : List RaceIn, ∀ r1 ∈ (build_output races).races,
        ∀ r2 ∈ (build_output races).races, r1.name = r2.name → r1.slug = r2.slug)
    ∧ slugOf "Grand  Prix of St. Petersburg!" = "grand-prix-of-st-petersburg" := by
  refine ⟨?_, ?_, ?_, by decide⟩
  · intro races
    exact buildGo_round races 1
  · intro races r hr
    have h := buildGo_fields races 1 r hr
    exact ⟨h.1, h.2.1⟩
  · intro races r1 h1 r2 h2 hname
    have f1 := (buildGo_fields races 1 r1 h1).1
    have f2 := (buildGo_fields races 1 r2 h2).1
    rw [f1, f2, hname]

/-- Witness for C7 on a concrete two-race list. -/
theorem C7_round_slug_determinism_witness :
    (build_output [⟨"Alpha GP", [("race", 0)], false⟩, ⟨"Alpha GP", [], true⟩]).races.map
        RaceOut.round = List.range' 1 2
    ∧ ((build_output [⟨"Alpha GP", [("race", 0)], false⟩, ⟨"Alpha GP", [], true⟩]).races.getD 0 dRace).slug
        = ((build_output [⟨"Alpha GP", [("race", 0)], false⟩, ⟨"Alpha GP", [], true⟩]).races.getD 1 dRace).slug := by
  constructor
  · exact (C7_round_slug_determinism.1
      [⟨"Alpha GP", [("race", 0)], false⟩, ⟨"Alpha GP", [], true⟩])
  · exact C7_round_slug_determinism.2.2.1
      [⟨"Alpha GP", [("race", 0)], false⟩, ⟨"Alpha GP", [], true⟩]
      _ (by decide) _ (by decide) (by decide)

/-- C10: `build_output` keeps the length and order of the race list, carries
`name`, `sessions` and `tbc` through unchanged, and each output record is
exactly `mkRaceOut (i + 1)` of the input record at index `i` — that is, the
only written fields are `round`, `slug`, `localeKey` and the two geographic
fields, the latter stubbed to zero. -/
theorem C10_build_output_frame :
    ∀ races : List RaceIn,
      (build_output races).races.length = races.length
      ∧ (∀ (i : Nat) (r0 : RaceIn), races.get? i = some r0 →
          (build_output races).races.get? i = some (mkRaceOut (i + 1) r0))
      ∧ ((build_output races).races.map (fun r => (r.name, r.sessions, r.tbc))
          = races.map (fun r => (r.name, r.sessions, r.tbc)))
      ∧ (∀ r ∈ (build_output races).races, r.longitude = 0 ∧ r.latitude = 0) := by
  intro races
  refine ⟨buildGo_length races 1, ?_, buildGo_triple races 1, ?_⟩
  · intro i r0 h
    have := buildGo_get? races 1 i r0 h
    rwa [Nat.add_comm 1 i] at this
  · intro r hr
    have h := buildGo_fields races 1 r hr
    exact ⟨h.2.2.1, h.2.2.2⟩

/-- Witness for C10 on a concrete input. -/
theorem C10_build_output_frame_witness :
    (build_output [⟨"Alpha GP", [("race", 7)], true⟩]).races.get? 0
      = some (mkRaceOut 1 ⟨"Alpha GP", [("race", 7)], true⟩) :=
  (C10_build_output_frame [⟨"Alpha GP", [("race", 7)], true⟩]).2.1 0
    ⟨"Alpha GP", [("race", 7)], true⟩ (by decide)


/-! ## Lemmas about the reconciliation of past session deletions -/

theorem get?_set_self {α : Type} :
    ∀ (l : List α) (i : Nat) (a : α), i < l.length →
      (l.set i a).get? i = some a := by
  intro l
  induction l with
  | nil => intro i a h; simp at h
  | cons x xs ih =>
    intro i a h
    cases i with
    | zero => rfl
    | succ j =>
      show (xs.set j a).get? j = some a
      exact ih j a (by simpa using h)

theorem get?_set_ne {α : Type} :
    ∀ (l : List α) (i j : Nat) (a : α), i ≠ j →
      (l.set i a).get? j = l.get? j := by
  intro l
  induction l with
  | nil => intro i j a _; rfl
  | cons x xs ih =>
    intro i j a hne
    cases i with
    | zero =>
      cases j with
      | zero => exact absurd rfl hne
      | succ k => rfl
    | succ i' =>
      cases j with
      | zero => rfl
      | succ k =>
        show (xs.set i' a).get? k = xs.get? k
        exact ih i' k a (by omega)

theorem foldl_set_length {α : Type} (f : Nat → α) :
    ∀ (idxs : List Nat) (l : List α),
      (idxs.foldl (fun acc i => acc.set i (f i)) l).length = l.length := by
  intro idxs
  induction idxs with
  | nil => intro l; rfl
  | cons i rest ih =>
    intro l
    show (rest.foldl (fun acc i => acc.set i (f i)) (l.set i (f i))).length = l.length
    rw [ih (l.set i (f i)), List.length_set]

theorem foldl_set_get?_not_mem {α : Type} (f : Nat → α) :
    ∀ (idxs : List Nat) (l : List α) (j : Nat), j ∉ idxs →
      (idxs.foldl (fun acc i => acc.set i (f i)) l).get? j = l.get? j := by
  intro idxs
  induction idxs with
  | nil => intro l j _; rfl
  | cons i rest ih =>
    intro l j hj
    have hji : i ≠ j := fun hc => hj (by rw [hc]; exact List.mem_cons_self _ _)
    have hjr : j ∉ rest := fun hc => hj (List.mem_cons_of_mem _ hc)
    show (rest.foldl (fun acc i => acc.set i (f i)) (l.set i (f i))).get? j = l.get? j
    rw [ih (l.set i (f i)) j hjr, get?_set_ne l i j (f i) hji]

theorem foldl_set_get?_mem {α : Type} (f : Nat → α) :
    ∀ (idxs : List Nat) (l : List α) (j : Nat), j ∈ idxs → j < l.length →
      (idxs.foldl (fun acc i => acc.set i (f i)) l).get? j = some (f j) := by
  intro idxs
  induction idxs with
  | nil => intro l j h _; simp at h
  | cons i rest ih =>
    intro l j hj hlen
    show (rest.foldl (fun acc i => acc.set i (f i)) (l.set i (f i))).get? j = some (f j)
    by_cases hr : j ∈ rest
    · exact ih (l.set i (f i)) j hr (by rw [List.length_set]; exact hlen)
    · have hji : j = i := by
        rcases List.mem_cons.mp hj with h | h
        · exact h
        · exact absurd h hr
      subst hji
      rw [foldl_set_get?_not_mem f rest (l.set j (f j)) j hr,
        get?_set_self l j (f j) hlen]

theorem racesDiff_mem {old new : List RaceOut} {p : Nat × RaceDiff}
    (h : p ∈ racesDiff old new) :
    p.1 < min old.length new.length
    ∧ p.2 = raceDiff (old.getD p.1 dRace) (new.getD p.1 dRace) := by
  unfold racesDiff at h
  rw [List.mem_filterMap] at h
  obtain ⟨i, hi, hif⟩ := h
  rw [List.mem_range] at hi
  simp only at hif
  by_cases hc : raceDiff (old.getD i dRace) (new.getD i dRace) = (⟨[], none⟩ : RaceDiff)
  · rw [if_pos hc] at hif
    exact absurd hif (by simp)
  · rw [if_neg hc] at hif
    rw [Option.some.injEq] at hif
    subst hif
    exact ⟨hi, rfl⟩

theorem get?_eq_getD {α : Type} :
    ∀ (l : List α) (i : Nat) (d : α), i < l.length → l.get? i = some (l.getD i d) := by
  intro l
  induction l with
  | nil => intro i d h; simp at h
  | cons x xs ih =>
    intro i d h
    cases i with
    | zero => rfl
    | succ j => exact ih j d (by simpa using h)

theorem collectPastDeleted_all {now : Int} :
    ∀ d : List (Nat × RaceDiff),
      (∀ p ∈ d, ((patternRemoved p.2).map
          (fun rem => rem.all (fun q => q.2 < now))).getD false = true) →
      collectPastDeleted now d = d.map Prod.fst := by
  intro d
  induction d with
  | nil => intro _; rfl
  | cons p rest ih =>
    intro hall
    have hp := hall p (List.mem_cons_self _ _)
    rcases hrem : patternRemoved p.2 with _ | rem
    · rw [hrem] at hp
      simp at hp
    · rw [hrem] at hp
      rw [Option.map_some', Option.getD_some] at hp
      show ((patternRemoved p.2).map (fun removed =>
          if removed.all (fun q => q.2 < now) then p.1 :: collectPastDeleted now rest
          else collectPastDeleted now rest)).getD [] = p.1 :: rest.map Prod.fst
      rw [hrem, Option.map_some', Option.getD_some, if_pos hp,
        ih (fun q hq => hall q (List.mem_cons_of_mem _ hq))]

/-- C6 counterexample: old and new documents where race 0 differs only in
name and race 1 differs only by a deleted session whose instant 10 is in the
past of `now = 50`. The claim requires the new race 1 to be replaced by the
old one verbatim; the code scans the race diffs with `break` on the first
non-matching entry (race 0), so race 1 is left as the new value. -/
theorem C6_retain_counterexample :
    patternRemoved (raceDiff
        ⟨"Gamma GP", [("practice1", 10), ("race", 200)], false, 2, "g", "g", 0, 0⟩
        ⟨"Gamma GP", [("race", 200)], false, 2, "g", "g", 0, 0⟩)
      = some [("practice1", 10)]
    ∧ ((10 : Int) < 50)
    ∧ (retain_past_deleted_sessions 50
        ⟨[⟨"Alpha GP", [("race", 100)], false, 1, "a", "a", 0, 0⟩,
          ⟨"Gamma GP", [("practice1", 10), ("race", 200)], false, 2, "g", "g", 0, 0⟩]⟩
        ⟨[⟨"Beta GP", [("race", 100)], false, 1, "a", "a", 0, 0⟩,
          ⟨"Gamma GP", [("race", 200)], false, 2, "g", "g", 0, 0⟩]⟩).races.get? 1
      = some ⟨"Gamma GP", [("race", 200)], false, 2, "g", "g", 0, 0⟩
    ∧ ¬ (retain_past_deleted_sessions 50
        ⟨[⟨"Alpha GP", [("race", 100)], false, 1, "a", "a", 0, 0⟩,
          ⟨"Gamma GP", [("practice1", 10), ("race", 200)], false, 2, "g", "g", 0, 0⟩]⟩
        ⟨[⟨"Beta GP", [("race", 100)], false, 1, "a", "a", 0, 0⟩,
          ⟨"Gamma GP", [("race", 200)], false, 2, "g", "g", 0, 0⟩]⟩).races.get? 1
      = some ⟨"Gamma GP", [("practice1", 10), ("race", 200)], false, 2, "g", "g", 0, 0⟩ := by
  decide

/-- C6 amended: the replacement happens only when every race-index diff
scanned before (and including) the one at hand matches the pure-deletion
pattern — the scan stops at the first non-matching entry. Stated here for the
case where every entry of the race diff matches the pattern with all removed
instants in the past: then every differing index is replaced by the old race
record verbatim. The two concrete conjuncts prove the spec example: for
sessions {practice1: 10, race: 1000} against a new document missing
practice1, reconciliation reports no update when now = 500 (deletion in the
past) and returns the new document when now = 5 (deletion in the future). -/
theorem C6_retain_past_deletions_amended :
    (∀ (now : Int) (old new : Sched),
      (∀ p ∈ racesDiff old.races new.races,
        ((patternRemoved p.2).map
          (fun rem => rem.all (fun q => q.2 < now))).getD false = true) →
      ∀ p ∈ racesDiff old.races new.races,
        (retain_past_deleted_sessions now old new).races.get? p.1
          = old.races.get? p.1)
    ∧ update_schedule_decision 500
        ⟨[⟨"Gamma GP", [("practice1", 10), ("race", 1000)], false, 1, "g", "g", 0, 0⟩]⟩
        ⟨[⟨"Gamma GP", [("race", 1000)], false, 1, "g", "g", 0, 0⟩]⟩ = none
    ∧ update_schedule_decision 5
        ⟨[⟨"Gamma GP", [("practice1", 10), ("race", 1000)], false, 1, "g", "g", 0, 0⟩]⟩
        ⟨[⟨"Gamma GP", [("race", 1000)], false, 1, "g", "g", 0, 0⟩]⟩
      = some ⟨[⟨"Gamma GP", [("race", 1000)], false, 1, "g", "g", 0, 0⟩]⟩ := by
  refine ⟨?_, by decide, by decide⟩
  intro now old new hall p hp
  obtain ⟨hlt, _⟩ := racesDiff_mem hp
  have hcollect : collectPastDeleted now (racesDiff old.races new.races)
      = (racesDiff old.races new.races).map Prod.fst :=
    collectPastDeleted_all (racesDiff old.races new.races) hall
  show (((collectPastDeleted now (racesDiff old.races new.races)).foldl
      (fun rs idx => rs.set idx (old.races.getD idx dRace)) new.races).get? p.1)
    = old.races.get? p.1
  rw [hcollect]
  rw [foldl_set_get?_mem (fun idx => old.races.getD idx dRace)
    ((racesDiff old.races new.races).map Prod.fst) new.races p.1
    (List.mem_map_of_mem Prod.fst hp) (lt_of_lt_of_le hlt (min_le_right _ _))]
  rw [get?_eq_getD old.races p.1 dRace (lt_of_lt_of_le hlt (min_le_left _ _))]

/-- Witness for the amended C6: a one-race diff consisting of a single past
deletion is replaced with the old race record. -/
theorem C6_retain_past_deletions_amended_witness :
    ∀ p ∈ racesDiff
        [(⟨"Gamma GP", [("practice1", 10), ("race", 200)], false, 2, "g", "g", 0, 0⟩ : RaceOut)]
        [⟨"Gamma GP", [("race", 200)], false, 2, "g", "g", 0, 0⟩],
      (retain_past_deleted_sessions 50
        ⟨[⟨"Gamma GP", [("practice1", 10), ("race", 200)], false, 2, "g", "g", 0, 0⟩]⟩
        ⟨[⟨"Gamma GP", [("race", 200)], false, 2, "g", "g", 0, 0⟩]⟩).races.get? p.1
      = (⟨[⟨"Gamma GP", [("practice1", 10), ("race", 200)], false, 2, "g", "g", 0, 0⟩]⟩ :
          Sched).races.get? p.1 :=
  C6_retain_past_deletions_amended.1 50
    ⟨[⟨"Gamma GP", [("practice1", 10), ("race", 200)], false, 2, "g", "g", 0, 0⟩]⟩
    ⟨[⟨"Gamma GP", [("race", 200)], false, 2, "g", "g", 0, 0⟩]⟩
    (by decide)


/-! ## parse_session failure semantics -/

/-- C8: over the line decomposition of the normalized schedule text,
`parse_session` raises the unknown-timezone error exactly when the last
space-separated token of the time line, uppercased, is not one of ET, EST,
EDT; with an allowed token it raises the time-range unpacking error exactly
when removing the timezone token and splitting on the literal " - " does not
give exactly two pieces, and otherwise returns the title together with the
two instants parsed from "date year clock" under the US-Eastern-to-UTC
settings; a text with fewer than three lines raises the line-unpacking
error. No input is silently skipped. -/
theorem C8_parse_session_failure_semantics :
    (∀ (dp : String → DateParserSettings → Option Int) (event : String) (year : Int)
        (date time title : String) (rest : List String),
      pySplitOn "\n" (normalizeEvent event) = date :: time :: title :: rest →
      ((∃ t, parse_session dp event year
          = Except.error (SessionParseErr.unknownTimezone t))
        ↔ pyUpper (((pySplitOn " " time).getLast?).getD "")
            ∉ (["ET", "EST", "EDT"] : List String))
      ∧ (pyUpper (((pySplitOn " " time).getLast?).getD "")
            ∈ (["ET", "EST", "EDT"] : List String) →
        ((pySplitOn " - " (pyReplace time
              (" " ++ (((pySplitOn " " time).getLast?).getD "")) "")).length ≠ 2 →
          parse_session dp event year = Except.error SessionParseErr.badTimeRange)
        ∧ (∀ st en, pySplitOn " - " (pyReplace time
              (" " ++ (((pySplitOn " " time).getLast?).getD "")) "") = [st, en] →
          parse_session dp event year
            = Except.ok ⟨title, dp s!"{date} {year} {st}" easternToUtc,
                dp s!"{date} {year} {en}" easternToUtc⟩)))
    ∧ (∀ (dp : String → DateParserSettings → Option Int) (event : String) (year : Int),
      (pySplitOn "\n" (normalizeEvent event)).length < 3 →
      parse_session dp event year = Except.error SessionParseErr.badEventLines) := by
  constructor
  · intro dp event year date time title rest hsplit
    by_cases hin : pyUpper (((pySplitOn " " time).getLast?).getD "")
        ∈ (["ET", "EST", "EDT"] : List String)
    · have hps2 : parse_session dp event year
          = (match pySplitOn " - " (pyReplace time
              (" " ++ (((pySplitOn " " time).getLast?).getD "")) "") with
            | [start_time, end_time] =>
              Except.ok ⟨title, dp s!"{date} {year} {start_time}" easternToUtc,
                dp s!"{date} {year} {end_time}" easternToUtc⟩
            | _ => Except.error SessionParseErr.badTimeRange) := by
        unfold parse_session
        rw [hsplit]
        exact if_pos hin
      have hne : ∀ t, parse_session dp event year
          ≠ Except.error (SessionParseErr.unknownTimezone t) := by
        intro t hc
        rcases hsp : pySplitOn " - " (pyReplace time
            (" " ++ (((pySplitOn " " time).getLast?).getD "")) "") with _ | ⟨a, rest2⟩
        · rw [hps2, hsp] at hc; simp at hc
        rcases rest2 with _ | ⟨b, rest3⟩
        · rw [hps2, hsp] at hc; simp at hc
        rcases rest3 with _ | ⟨c, tl⟩
        · rw [hps2, hsp] at hc; simp at hc
        · rw [hps2, hsp] at hc; simp at hc
      refine ⟨⟨fun h => absurd hin ?_, fun h => absurd hin h⟩, fun _ => ⟨?_, ?_⟩⟩
      · obtain ⟨t, ht⟩ := h
        exact absurd ht (hne t)
      · intro hlen
        rcases hsp : pySplitOn " - " (pyReplace time
            (" " ++ (((pySplitOn " " time).getLast?).getD "")) "") with _ | ⟨a, rest2⟩
        · rw [hps2, hsp]
        rcases rest2 with _ | ⟨b, rest3⟩
        · rw [hps2, hsp]
        rcases rest3 with _ | ⟨c, tl⟩
        · exact absurd (by rw [hsp]; rfl) hlen
        · rw [hps2, hsp]
      · intro st en hsp
        rw [hps2, hsp]
    · have hps : parse_session dp event year
          = Except.error (SessionParseErr.unknownTimezone
              (((pySplitOn " " time).getLast?).getD "")) := by
        unfold parse_session
        rw [hsplit]
        exact if_neg hin
      refine ⟨⟨fun _ => hin, fun _ => ⟨_, hps⟩⟩, fun h => absurd h hin⟩
  · intro dp event year hlen
    rcases hs : pySplitOn "\n" (normalizeEvent event) with _ | ⟨a, rest1⟩
    · unfold parse_session; rw [hs]
    rcases rest1 with _ | ⟨b, rest2⟩
    · unfold parse_session; rw [hs]
    rcases rest2 with _ | ⟨c, tl⟩
    · unfold parse_session; rw [hs]
    · rw [hs] at hlen
      simp at hlen
      omega

/-- Witness for C8: a well-formed three-line entry parses into the title and
the two instants handed to the date parser; an unknown timezone token fails;
a time line with no range separator after timezone removal fails; a one-line
text fails on unpacking. -/
theorem C8_parse_session_failure_semantics_witness :
    parse_session (fun _ _ => some 0) "Mar 1\n9:00 AM - 10:00 AM ET\nPractice 1" 2024
      = Except.ok ⟨"Practice 1", some 0, some 0⟩
    ∧ (∃ t, parse_session (fun _ _ => some 0)
        "Mar 1\n9:00 AM - 10:00 AM XX\nPractice 1" 2024
      = Except.error (SessionParseErr.unknownTimezone t))
    ∧ parse_session (fun _ _ => some 0) "Mar 1\n9:00 AM ET\nPractice 1" 2024
      = Except.error SessionParseErr.badTimeRange
    ∧ parse_session (fun _ _ => some 0) "only one line" 2024
      = Except.error SessionParseErr.badEventLines := by
  refine ⟨?_, ?_, ?_, ?_⟩
  · exact ((C8_parse_session_failure_semantics.1 (fun _ _ => some 0)
      "Mar 1\n9:00 AM - 10:00 AM ET\nPractice 1" 2024
      "Mar 1" "9:00 AM - 10:00 AM ET" "Practice 1" [] (by decide)).2
      (by decide)).2 "9:00 AM" "10:00 AM" (by decide)
  · exact (C8_parse_session_failure_semantics.1 (fun _ _ => some 0)
      "Mar 1\n9:00 AM - 10:00 AM XX\nPractice 1" 2024
      "Mar 1" "9:00 AM - 10:00 AM XX" "Practice 1" [] (by decide)).1.mpr (by decide)
  · exact ((C8_parse_session_failure_semantics.1 (fun _ _ => some 0)
      "Mar 1\n9:00 AM ET\nPractice 1" 2024
      "Mar 1" "9:00 AM ET" "Practice 1" [] (by decide)).2 (by decide)).1 (by decide)
  · exact C8_parse_session_failure_semantics.2 (fun _ _ => some 0)
      "only one line" 2024 (by decide)

/-! ## Endpoint selection of the schedule assembly loop -/

theorem buildGo_names :
    ∀ (rs : List RaceIn) (n : Nat),
      (buildGo n rs).map RaceOut.name = rs.map RaceIn.name := by
  intro rs
  induction rs with
  | nil => intro n; rfl
  | cons a rs ih =>
    intro n
    show (mkRaceOut n a).name :: (buildGo (n + 1) rs).map RaceOut.name
        = a.name :: rs.map RaceIn.name
    rw [ih (n + 1)]
    rfl

/-- C9 counterexample: an event whose data endpoint succeeds and would yield
the race name "Primary Name"; the schedule loop nevertheless produces the
matchup-derived record named after the event title, because the data-endpoint
attempt and the fallback are commented out in the source (lines 382-387) and
the loop fetches the matchup endpoint unconditionally. Under the claim, a
successful primary endpoint would determine the race details. -/
theorem C9_no_primary_fallback_counterexample :
    (get_race_details_from_data_url
        (fun _ => some ⟨"Primary Name", 500, [⟨"p1", 100⟩], false⟩) []
        ⟨"5852", "Event Title", "w", "du", "mu"⟩).map RaceIn.name
      = some "Primary Name"
    ∧ (get_indycar_schedule
        (fun _ => some ⟨"Primary Name", 500, [⟨"p1", 100⟩], false⟩)
        (fun _ => ⟨[⟨"p1", 100⟩, ⟨"r", 500⟩]⟩) []
        [⟨"5852", "Event Title", "w", "du", "mu"⟩]).races.map RaceOut.name
      = ["Event Title"]
    ∧ ("Event Title" ≠ "Primary Name") := by
  decide

/-- C9 amended: `get_indycar_schedule` builds every race from the secondary
(matchup) endpoint unconditionally: its output does not depend on the data
endpoint oracle at all (first conjunct), and every race record carries the
event title as its name — the matchup path behavior, as opposed to the
payload header title the data-endpoint path would use (second conjunct). -/
theorem C9_matchup_only :
    (∀ (dataOf dataOf' : String → Option DataInfo) (matchupOf : String → MatchupInfo)
        (sessionIdMap : List (String × String)) (events : List FoxEvent),
      get_indycar_schedule dataOf matchupOf sessionIdMap events
        = get_indycar_schedule dataOf' matchupOf sessionIdMap events)
    ∧ (∀ (dataOf : String → Option DataInfo) (matchupOf : String → MatchupInfo)
        (sessionIdMap : List (String × String)) (events : List FoxEvent),
      (get_indycar_schedule dataOf matchupOf sessionIdMap events).races.map RaceOut.name
        = events.map FoxEvent.title) := by
  constructor
  · intro _ _ _ _ _
    rfl
  · intro dataOf matchupOf sessionIdMap events
    show (buildGo 1 (events.map
        (fun ev => get_race_details_from_matchup_url matchupOf sessionIdMap ev))).map
          RaceOut.name = events.map FoxEvent.title
    rw [buildGo_names, List.map_map]
    rfl

end Indycar
